import Mathlib

/-!
# Island counting and maze solving on a character grid

A shallow embedding of `src/island.cc`.

* The class `grid` becomes a structure with the four data members `g`, `g_backup`, `m`, `n`.
  `vector<char>` is `List Char`; `int` is `Int` (step counters are bounded by the number of
  cells, so no wrap-around is modelled; the constant `INT_MAX` is kept as in the source).
* `v[i]` on a `vector<char>` is unchecked in C++.  A read outside the vector yields the
  value `junk`, a parameter over which every theorem quantifies; a write outside the vector
  stops the run with `Run.fault`.
* The two recursive procedures (`destroyIsland`, `solveMazeUtil`) take a recursion budget;
  exhausting it gives `Run.fuel`.  The public entry points supply a budget of one more than
  the number of stored cells, which the theorems show is never exhausted.
* `solveMazeUtilTrace` and `solveMazeTrace` are instrumented copies of `solveMazeUtil` and
  `solveMaze` that also list the storage indices they touch.
* The state of a cell of a grid is what `getElem` reads for its coordinates (`cell`); a
  cell whose index lies outside the storage has no state.
-/

namespace Island

/-- Outcome of running a procedure: a result, a write outside the storage vector, or an
exhausted recursion budget. -/
inductive Run (α : Type) where
  | done (a : α)
  | fault
  | fuel
  deriving DecidableEq

/-- Sequencing of runs. -/
def Run.bind {α β : Type} : Run α → (α → Run β) → Run β
  | Run.done a, f => f a
  | Run.fault, _ => Run.fault
  | Run.fuel, _ => Run.fuel

/-- The class `grid`: cell storage `g`, the snapshot `g_backup`, and the dimensions
`m` (number of rows, bound of `y`) and `n` (number of columns, bound of `x`). -/
structure grid where
  g : List Char
  g_backup : List Char
  m : Int
  n : Int
  deriving DecidableEq

/-- The value of `INT_MAX` from `<climits>` (32-bit `int`). -/
def INT_MAX : Int := 2147483647

/-- Storage index used by `setElem` and `getElem`: `y * m + x`. -/
def index (m x y : Int) : Int := y * m + x

/-- Unchecked write `v[y * m + x] = val`; `none` when the index is outside the vector. -/
def setElem (m x y : Int) (val : Char) (v : List Char) : Option (List Char) :=
  if 0 ≤ index m x y ∧ index m x y < v.length then some (v.set (index m x y).toNat val)
  else none

/-- Unchecked read `v[y * m + x]`; `junk` when the index is outside the vector. -/
def getElem (junk : Char) (m x y : Int) (v : List Char) : Char :=
  if 0 ≤ index m x y then v.getD (index m x y).toNat junk else junk

/-- Range test `isInRange`: `(x < n) && (x >= 0) && (y < m) && (y >= 0)`. -/
def isInRange (m n x y : Int) : Bool :=
  decide (x < n) && decide (x ≥ 0) && decide (y < m) && decide (y ≥ 0)

/-- The procedure `isIsolated`. -/
def isIsolated (junk : Char) (m n x y : Int) (v : List Char) : Bool :=
  if getElem junk m x y v = '0' ∨ isInRange m n x y = false then false
  else if x + 1 < n ∧ getElem junk m (x + 1) y v = '1' then false
  else if x - 1 ≥ 0 ∧ getElem junk m (x - 1) y v = '1' then false
  else if y + 1 < m ∧ getElem junk m x (y + 1) v = '1' then false
  else if y - 1 ≥ 0 ∧ getElem junk m x (y - 1) v = '1' then false
  else true

/-- The procedure `destroyIsland`, with a recursion budget; the vector `v` passed by
reference is returned. -/
def destroyIsland (junk : Char) (m n : Int) : Nat → Int → Int → List Char → Run (List Char)
  | 0, _, _, _ => Run.fuel
  | k + 1, x, y, v =>
    if getElem junk m x y v = '0' ∨ isInRange m n x y = false then Run.done v
    else if isIsolated junk m n x y v = true then
      match setElem m x y '0' v with
      | none => Run.fault
      | some v1 => Run.done v1
    else
      match setElem m x y '0' v with
      | none => Run.fault
      | some v1 =>
        (destroyIsland junk m n k (x + 1) y v1).bind fun v2 =>
        (destroyIsland junk m n k (x - 1) y v2).bind fun v3 =>
        (destroyIsland junk m n k x (y + 1) v3).bind fun v4 =>
        destroyIsland junk m n k x (y - 1) v4

/-- State of the double scan loop of `updateAndCount`: the counter `num_of_islands` and the
scratch vector `v`. -/
abbrev ScanState := Int × List Char

/-- One iteration of the inner loop body of `updateAndCount` at column `j` of row `i`. -/
def scanCell (junk : Char) (m n : Int) (i j : Nat) (s : ScanState) : Run ScanState :=
  if getElem junk m j i s.2 = '1' then
    (destroyIsland junk m n (s.2.length + 1) j i s.2).bind fun v1 => Run.done (s.1 + 1, v1)
  else Run.done s

/-- Inner loop `for (j = 0; j < n; ++j)` over the listed columns. -/
def scanRow (junk : Char) (m n : Int) (i : Nat) : List Nat → ScanState → Run ScanState
  | [], s => Run.done s
  | j :: js, s => (scanCell junk m n i j s).bind fun s1 => scanRow junk m n i js s1

/-- Outer loop `for (i = 0; i < m; ++i)` over the listed rows. -/
def scanRows (junk : Char) (m n : Int) : List Nat → ScanState → Run ScanState
  | [], s => Run.done s
  | i :: is, s =>
    (scanRow junk m n i (List.range n.toNat) s).bind fun s1 => scanRows junk m n is s1

/-- The method `updateAndCount`: returns the count and the grid afterwards. -/
def updateAndCount (junk : Char) (G : grid) (x y : Int) : Run (Int × grid) :=
  if isInRange G.m G.n x y = false then Run.done (0, G)
  else
    match setElem G.m x y '1' G.g with
    | none => Run.fault
    | some g1 =>
      (scanRows junk G.m G.n (List.range G.m.toNat) (0, g1)).bind fun s =>
        Run.done (s.1, { G with g := g1 })

/-- Result of one call of `solveMazeUtil`: the returned flag, the step counter `*steps`
and the storage `g` afterwards. -/
abbrev UtilState := Bool × Int × List Char

/-- The loop over `dirs` inside `solveMazeUtil`; `call` is the recursive call. -/
def tryDirs (call : Int → Int → Int → List Char → Run UtilState) (x y : Int) :
    List (Int × Int) → Int → List Char → Run UtilState
  | [], steps, g => Run.done (false, steps, g)
  | d :: ds, steps, g =>
    match call (x + d.1) (y + d.2) steps g with
    | Run.done (true, s1, g1) => Run.done (true, s1, g1)
    | Run.done (false, s1, g1) => tryDirs call x y ds s1 g1
    | Run.fault => Run.fault
    | Run.fuel => Run.fuel

/-- The procedure `solveMazeUtil`, with a recursion budget. -/
def solveMazeUtil (junk : Char) (m n : Int) (dirs : List (Int × Int)) :
    Nat → Int → Int → Int → List Char → Run UtilState
  | 0, _, _, _, _ => Run.fuel
  | k + 1, x, y, steps, g =>
    if x = n - 1 ∧ y = m - 1 then
      match setElem m x y '+' g with
      | none => Run.fault
      | some g1 => Run.done (true, steps + 1, g1)
    else if getElem junk m x y g = '0' ∧ isInRange m n x y = true then
      match setElem m x y '+' g with
      | none => Run.fault
      | some g1 =>
        match tryDirs (solveMazeUtil junk m n dirs k) x y dirs (steps + 1) g1 with
        | Run.done (true, s1, g2) => Run.done (true, s1, g2)
        | Run.done (false, s1, g2) =>
          match setElem m x y '0' g2 with
          | none => Run.fault
          | some g3 => Run.done (false, s1 - 1, g3)
        | Run.fault => Run.fault
        | Run.fuel => Run.fuel
    else Run.done (false, steps, g)

/-- The direction list built by `solveMaze` and `solveMazeBest`: east, south, north, west. -/
def dirs0 : List (Int × Int) := [(1, 0), (0, 1), (0, -1), (-1, 0)]

/-- The method `solveMaze`: returns the step count and the grid afterwards. -/
def solveMaze (junk : Char) (G : grid) : Run (Int × grid) :=
  if getElem junk G.m 0 0 G.g = '1' ∨ getElem junk G.m (G.n - 1) (G.m - 1) G.g = '1' then
    Run.done (0, G)
  else
    match solveMazeUtil junk G.m G.n dirs0 (G.g.length + 1) 0 0 0 G.g with
    | Run.done (true, steps, g1) => Run.done (steps, { G with g := g1 })
    | Run.done (false, _, g1) => Run.done (0, { G with g := g1 })
    | Run.fault => Run.fault
    | Run.fuel => Run.fuel

/-- The constructor `grid(m, n)`: `g.resize(m * n)` fills the storage with null
characters. -/
def newGrid (m n : Int) : grid :=
  { g := List.replicate (m * n).toNat (Char.ofNat 0), g_backup := [], m := m, n := n }

/-- The method `clearGrid`: every stored character becomes `'0'`. -/
def clearGrid (G : grid) : grid := { G with g := G.g.map fun _ => '0' }

/-- The loop of `setGrid` on the storage: `setElem(it->first, it->second, '1', g)` for every
pair of the vector. -/
def setAll (m : Int) : List (Int × Int) → List Char → Run (List Char)
  | [], g => Run.done g
  | p :: ps, g =>
    match setElem m p.1 p.2 '1' g with
    | none => Run.fault
    | some g1 => setAll m ps g1

/-- The method `setGrid`. -/
def setGrid (G : grid) (v : List (Int × Int)) : Run grid :=
  (setAll G.m v G.g).bind fun g1 => Run.done { G with g := g1 }

/-- The library call `copy(src.begin(), src.end(), dst.begin())`: the leading `src.size()`
elements of `dst` are overwritten by `src`; when `dst` is shorter than `src` the call writes
outside `dst`. -/
def copy (src dst : List Char) : Run (List Char) :=
  if src.length ≤ dst.length then Run.done (src ++ dst.drop src.length) else Run.fault

/-- Longest leading run of a list in which every element is at most its successor, and
the remainder. -/
def splitRun : List Nat → List Nat × List Nat
  | [] => ([], [])
  | [x] => ([x], [])
  | x :: y :: rest =>
    if x ≤ y then ((splitRun (y :: rest)).1.cons x, (splitRun (y :: rest)).2)
    else ([x], y :: rest)

/-- Exchange `p` with the first element of the list that exceeds it. -/
def swapIn (p : Nat) : List Nat → Option (Nat × List Nat)
  | [] => none
  | q :: s =>
    if p < q then some (q, p :: s)
    else
      match swapIn p s with
      | none => none
      | some r => some (r.1, q :: r.2)

/-- The library call `next_permutation` on a vector of indices: the next arrangement in
lexicographic order, or `none` when the call returns `false`. -/
def nextPermutation (a : List Nat) : Option (List Nat) :=
  match splitRun a.reverse with
  | (_, []) => none
  | (s, p :: t) =>
    match swapIn p s with
    | none => none
    | some r => some (t.reverse ++ r.1 :: r.2)

/-- Local state of the loop of `solveMazeBest`: storage `g`, `min_path`, `solution_found`
and `best`. -/
structure BestState where
  g : List Char
  min_path : Int
  solution_found : Bool
  best : List Char
  deriving DecidableEq

/-- The vector `tmp_dirs` built from `dirs` and the index vector `inds`. -/
def tmpDirs (inds : List Nat) : List (Int × Int) :=
  [dirs0.getD (inds.getD 0 0) (0, 0), dirs0.getD (inds.getD 1 0) (0, 0),
   dirs0.getD (inds.getD 2 0) (0, 0), dirs0.getD (inds.getD 3 0) (0, 0)]

/-- Body of the `do ... while` loop of `solveMazeBest` for one index vector; `v` is the
saved original storage. -/
def bestBody (junk : Char) (m n : Int) (v : List Char) (inds : List Nat) (s : BestState) :
    Run BestState :=
  match solveMazeUtil junk m n (tmpDirs inds) (s.g.length + 1) 0 0 0 s.g with
  | Run.done (ok, steps, g1) =>
    if ok = true ∧ steps < s.min_path then
      (copy g1 s.best).bind fun best1 =>
      (copy v g1).bind fun g2 =>
        Run.done { g := g2, min_path := steps, solution_found := true, best := best1 }
    else (copy v g1).bind fun g2 => Run.done { s with g := g2 }
  | Run.fault => Run.fault
  | Run.fuel => Run.fuel

/-- The loop `do body while (next_permutation(inds))`, with an iteration budget. -/
def permLoop (body : List Nat → BestState → Run BestState) :
    Nat → List Nat → BestState → Run BestState
  | 0, _, _ => Run.fuel
  | k + 1, inds, s =>
    match body inds s with
    | Run.done s1 =>
      match nextPermutation inds with
      | some inds1 => permLoop body k inds1 s1
      | none => Run.done s1
    | Run.fault => Run.fault
    | Run.fuel => Run.fuel

/-- The method `solveMazeBest`: returns the step count and the grid afterwards.  The loop
budget is the number of arrangements of four indices. -/
def solveMazeBest (junk : Char) (G : grid) : Run (Int × grid) :=
  if getElem junk G.m 0 0 G.g = '1' ∨ getElem junk G.m (G.n - 1) (G.m - 1) G.g = '1' then
    Run.done (0, G)
  else
    match permLoop (bestBody junk G.m G.n G.g) 24 [0, 1, 2, 3]
        { g := G.g, min_path := INT_MAX, solution_found := false, best := G.g } with
    | Run.done s =>
      if s.solution_found = false then Run.done (-1, { G with g := s.g })
      else (copy s.best s.g).bind fun g2 => Run.done (s.min_path, { G with g := g2 })
    | Run.fault => Run.fault
    | Run.fuel => Run.fuel

/-! ## Vocabulary of the specification -/

/-- Stored state of cell `(x, y)`: the character at its storage index, `none` when that index
lies outside the storage vector. -/
def cell (G : grid) (x y : Int) : Option Char :=
  if 0 ≤ index G.m x y then G.g[(index G.m x y).toNat]? else none

/-- Cell `(x, y)` is a stored cell whose state is not Occupied (`'1'`). -/
def NotOccupied (G : grid) (x y : Int) : Prop :=
  ∃ c, cell G x y = some c ∧ c ≠ '1'

/-- A call that reports failure leaves the step counter and the storage as they were. -/
def Restoring (call : Int → Int → Int → List Char → Run UtilState) : Prop :=
  ∀ x y s g s' g', call x y s g = Run.done (false, s', g') → s' = s ∧ g' = g

/-- The terminal cell `(n - 1, m - 1)` has its index inside a vector of length `len`. -/
def TerminalStored (m n : Int) (len : Nat) : Prop :=
  0 ≤ index m (n - 1) (m - 1) ∧ index m (n - 1) (m - 1) < len

/-- The index vectors visited by `do ... while (next_permutation(inds))` from `inds`, at most
`k` of them. -/
def permSeq : Nat → List Nat → List (List Nat)
  | 0, _ => []
  | k + 1, inds =>
    match nextPermutation inds with
    | some inds1 => inds :: permSeq k inds1
    | none => [inds]

/-- The direction orders tried by `solveMazeBest`, in the order in which it tries them. -/
def dirOrders : List (List (Int × Int)) := (permSeq 24 [0, 1, 2, 3]).map tmpDirs

/-- One search run of `solveMazeUtil(0, 0, &steps, dirs)` with `steps = 0` on the grid `G`,
as started by `solveMaze` and `solveMazeBest`.  The budget is above the number of `'0'`
entries, so it is never exhausted and any larger budget gives the same outcome. -/
def runFrom (junk : Char) (G : grid) (dirs : List (Int × Int)) : Run UtilState :=
  solveMazeUtil junk G.m G.n dirs (G.g.length + 1) 0 0 0 G.g

/-- Iteration of a loop body over a list of index vectors. -/
def loopOver (body : List Nat → BestState → Run BestState) :
    List (List Nat) → BestState → Run BestState
  | [], s => Run.done s
  | inds :: rest, s =>
    match body inds s with
    | Run.done s1 => loopOver body rest s1
    | Run.fault => Run.fault
    | Run.fuel => Run.fuel

/-- The in-range coordinates `(x, y)` of a grid, in the row-major order of `dumpGrid`. -/
def cellsOf (G : grid) : List (Int × Int) :=
  (List.range G.m.toNat).flatMap fun i =>
    (List.range G.n.toNat).map fun j => ((j : Int), (i : Int))

/-- The in-range coordinates whose stored state is the character `c`. -/
def cellsWith (G : grid) (c : Char) : List (Int × Int) :=
  (cellsOf G).filter fun p => cell G p.1 p.2 = some c

/-- Four-directional (non-diagonal) adjacency of coordinates. -/
def adjacent (p q : Int × Int) : Prop :=
  (p.1 - q.1).natAbs + (p.2 - q.2).natAbs = 1

instance (p q : Int × Int) : Decidable (adjacent p q) := by
  unfold adjacent
  infer_instance

/-- Two coordinates are joined by a chain of adjacent members of `S`. -/
def Connected (S : List (Int × Int)) : Int × Int → Int × Int → Prop :=
  Relation.ReflTransGen fun a b => a ∈ S ∧ b ∈ S ∧ adjacent a b

/-- The set `S` of coordinates has exactly `k` connected components: there are `k`
members, pairwise not connected, such that every member of `S` is connected to one of
them. -/
def IsComponentCount (S : List (Int × Int)) (k : Nat) : Prop :=
  ∃ reps : List (Int × Int), reps.length = k ∧ (∀ r ∈ reps, r ∈ S) ∧
    reps.Pairwise (fun a b => ¬ Connected S a b) ∧ ∀ c ∈ S, ∃ r ∈ reps, Connected S r c

/-- A grid of two rows and three columns with every cell Free, as left by `grid(2, 3)`
followed by `clearGrid()`. -/
def wideFree : grid := { g := "000000".toList, g_backup := [], m := 2, n := 3 }

/-- The grid `wideFree` after `setGrid` with the single pair `(0, 1)`: `'1'` stands at
storage index 2. -/
def wideMarked : grid := { g := "001000".toList, g_backup := [], m := 2, n := 3 }

/-- The grid `wideFree` after `solveMaze`. -/
def wideSolved : grid := { g := "+++0+0".toList, g_backup := [], m := 2, n := 3 }

/-- A grid of two rows and two columns with every cell Free. -/
def smallFree : grid := { g := "0000".toList, g_backup := [], m := 2, n := 2 }

/-- A grid of two rows and two columns whose origin and terminal are Free and whose other
two cells are Occupied. -/
def smallWalled : grid := { g := "0110".toList, g_backup := [], m := 2, n := 2 }

/-- A grid of one row and one column whose only cell is Occupied. -/
def unitOccupied : grid := { g := "1".toList, g_backup := [], m := 1, n := 1 }

/-- A grid of twelve rows and twelve columns holding two disjoint blocks of two by two
Occupied cells and nothing else. -/
def twoBlocks : grid :=
  { g := ("000000000000" ++ "011000000000" ++ "011000000000" ++ "000000000000" ++
          "000000000000" ++ "000000110000" ++ "000000110000" ++ "000000000000" ++
          "000000000000" ++ "000000000000" ++ "000000000000" ++ "000000000000").toList,
    g_backup := [], m := 12, n := 12 }


/-! ## Further methods and vocabulary -/

/-- The method `saveGrid`: `g_backup.clear(); g_backup.resize(m * n);` followed by
`copy(g.begin(), g.end(), g_backup.begin())`. -/
def saveGrid (G : grid) : Run grid :=
  (copy G.g (List.replicate (G.m * G.n).toNat (Char.ofNat 0))).bind fun b =>
    Run.done { G with g_backup := b }

/-- The method `restoreGrid`: `g.clear();` followed by
`copy(g_backup.begin(), g_backup.end(), g.begin())` into the now empty vector. -/
def restoreGrid (G : grid) : Run grid :=
  (copy G.g_backup []).bind fun g1 => Run.done { G with g := g1 }

/-- Result of an instrumented call of `solveMazeUtil`: the result of the call and the storage
indices read or written, in order. -/
abbrev TracedState := UtilState × List Int

/-- The loop over `dirs` inside `solveMazeUtil`, instrumented. -/
def tryDirsTrace (call : Int → Int → Int → List Char → Run TracedState) (x y : Int) :
    List (Int × Int) → Int → List Char → Run TracedState
  | [], steps, g => Run.done ((false, steps, g), [])
  | d :: ds, steps, g =>
    match call (x + d.1) (y + d.2) steps g with
    | Run.done ((true, s1, g1), t) => Run.done ((true, s1, g1), t)
    | Run.done ((false, s1, g1), t) =>
      match tryDirsTrace call x y ds s1 g1 with
      | Run.done (r, t1) => Run.done (r, t ++ t1)
      | Run.fault => Run.fault
      | Run.fuel => Run.fuel
    | Run.fault => Run.fault
    | Run.fuel => Run.fuel

/-- The procedure `solveMazeUtil`, instrumented: besides the result it lists the index of
every `getElem` and `setElem` it evaluates.  The terminal test touches no storage; the
second test evaluates `getElem(x, y, g)` before `isInRange(x, y)`. -/
def solveMazeUtilTrace (junk : Char) (m n : Int) (dirs : List (Int × Int)) :
    Nat → Int → Int → Int → List Char → Run TracedState
  | 0, _, _, _, _ => Run.fuel
  | k + 1, x, y, steps, g =>
    if x = n - 1 ∧ y = m - 1 then
      match setElem m x y '+' g with
      | none => Run.fault
      | some g1 => Run.done ((true, steps + 1, g1), [index m x y])
    else if getElem junk m x y g = '0' ∧ isInRange m n x y = true then
      match setElem m x y '+' g with
      | none => Run.fault
      | some g1 =>
        match tryDirsTrace (solveMazeUtilTrace junk m n dirs k) x y dirs (steps + 1) g1 with
        | Run.done ((true, s1, g2), t) =>
          Run.done ((true, s1, g2), index m x y :: index m x y :: t)
        | Run.done ((false, s1, g2), t) =>
          match setElem m x y '0' g2 with
          | none => Run.fault
          | some g3 =>
            Run.done ((false, s1 - 1, g3), index m x y :: index m x y :: t ++ [index m x y])
        | Run.fault => Run.fault
        | Run.fuel => Run.fuel
    else Run.done ((false, steps, g), [index m x y])

/-- The method `solveMaze`, instrumented: the guard reads the origin and, when the origin is
not `'1'`, the terminal cell. -/
def solveMazeTrace (junk : Char) (G : grid) : Run ((Int × grid) × List Int) :=
  if getElem junk G.m 0 0 G.g = '1' then Run.done ((0, G), [index G.m 0 0])
  else if getElem junk G.m (G.n - 1) (G.m - 1) G.g = '1' then
    Run.done ((0, G), [index G.m 0 0, index G.m (G.n - 1) (G.m - 1)])
  else
    match solveMazeUtilTrace junk G.m G.n dirs0 (G.g.length + 1) 0 0 0 G.g with
    | Run.done ((true, steps, g1), t) =>
      Run.done ((steps, { G with g := g1 }), index G.m 0 0 :: index G.m (G.n - 1) (G.m - 1) :: t)
    | Run.done ((false, _, g1), t) =>
      Run.done ((0, { G with g := g1 }), index G.m 0 0 :: index G.m (G.n - 1) (G.m - 1) :: t)
    | Run.fault => Run.fault
    | Run.fuel => Run.fuel

/-- The list `p` is a path from `a` to `b`: it starts at `a`, ends at `b`, consecutive
entries are 4-adjacent, and every entry belongs to `S`. -/
def IsPath (S : List (Int × Int)) (a b : Int × Int) (p : List (Int × Int)) : Prop :=
  p.head? = some a ∧ p.getLast? = some b ∧ p.Chain' adjacent ∧ ∀ c ∈ p, c ∈ S

/-- A grid of one row and one column whose only cell is Free. -/
def unitFree : grid := { g := "0".toList, g_backup := [], m := 1, n := 1 }

/-- The grid `smallFree` after `setGrid` with the single pair `(2, 0)`. -/
def smallStray : grid := { g := "0010".toList, g_backup := [], m := 2, n := 2 }

/-- A grid of three rows and four columns with every cell Free. -/
def broadFree : grid := { g := "000000000000".toList, g_backup := [], m := 3, n := 4 }

/-- The grid `broadFree` after `solveMaze`. -/
def broadSolved : grid := { g := "++++00+00+00".toList, g_backup := [], m := 3, n := 4 }

/-- A grid of three rows and three columns with every cell Free. -/
def cubeFree : grid := { g := "000000000".toList, g_backup := [], m := 3, n := 3 }

/-- The grid `cubeFree` after `solveMaze`. -/
def cubeSolved : grid := { g := "+++00+00+".toList, g_backup := [], m := 3, n := 3 }

/-- A grid of five rows and five columns on which every direction order takes a detour. -/
def detour : grid :=
  { g := ("00000" ++ "00000" ++ "00100" ++ "00101" ++ "00100").toList,
    g_backup := [], m := 5, n := 5 }


/-- Every offset of the direction list is one of the four unit steps. -/
def UnitDirs (dirs : List (Int × Int)) : Prop :=
  ∀ d ∈ dirs, d.1.natAbs + d.2.natAbs = 1

/-- The in-range cell `c` reads `'0'` in the storage `g` of a square grid of side `n`. -/
def FreeAt (junk : Char) (n : Int) (g : List Char) (c : Int × Int) : Prop :=
  isInRange n n c.1 c.2 = true ∧ getElem junk n c.1 c.2 g = '0'

/-- One move between adjacent Free cells of the storage `g`. -/
def FreeStep (junk : Char) (n : Int) (g : List Char) (a b : Int × Int) : Prop :=
  FreeAt junk n g a ∧ FreeAt junk n g b ∧ adjacent a b


/-- The in-range cell `c` reads `'1'` in the storage `v` of a square grid of side `n`. -/
def OccAt (junk : Char) (n : Int) (v : List Char) (c : Int × Int) : Prop :=
  isInRange n n c.1 c.2 = true ∧ getElem junk n c.1 c.2 v = '1'

/-- One move between adjacent Occupied cells of the storage `v`. -/
def OccStep (junk : Char) (n : Int) (v : List Char) (a b : Int × Int) : Prop :=
  OccAt junk n v a ∧ OccAt junk n v b ∧ adjacent a b

/-- Every in-range cell of the storage `v` of a square grid of side `n` reads `'0'` or
`'1'`. -/
def Binary (junk : Char) (n : Int) (v : List Char) : Prop :=
  ∀ a b, isInRange n n a b = true → getElem junk n a b v = '0' ∨ getElem junk n a b v = '1'

/-- The storage `w'` results from `w` by erasing islands started at the cells `starts`:
no cell becomes Occupied, every erased cell is joined in `w` to one of the starts, no erased
cell is adjacent to a remaining Occupied cell, and no start remains Occupied. -/
def Erases (junk : Char) (n : Int) (starts : List (Int × Int)) (w w' : List Char) : Prop :=
  w'.length = w.length ∧ Binary junk n w' ∧ w'.count '1' ≤ w.count '1' ∧
    (∀ c, OccAt junk n w' c → OccAt junk n w c) ∧
    (∀ c, OccAt junk n w c → ¬ OccAt junk n w' c →
      ∃ nb ∈ starts, Relation.ReflTransGen (OccStep junk n w) nb c) ∧
    (∀ u c, OccAt junk n w u → ¬ OccAt junk n w' u → OccAt junk n w' c → ¬ adjacent u c) ∧
    ∀ nb ∈ starts, ¬ OccAt junk n w' nb

/-- Successive calls of `destroyIsland` at the listed cells, each on the storage left by the
previous one. -/
def destroyAll (junk : Char) (n : Int) (k : Nat) : List (Int × Int) → List Char → Run (List Char)
  | [], v => Run.done v
  | c :: cs, v => (destroyIsland junk n n k c.1 c.2 v).bind fun v1 => destroyAll junk n k cs v1


/-- Invariant of the scan loops of `updateAndCount` on a square grid: `v0` is the scratch
copy at the start, `seen` the cells scanned so far and `s` the current counter and scratch
copy.  The scratch copy results from `v0` by erasing islands started at scanned cells, and
the counter is the length of a list of cells of `v0`, pairwise not joined, to which every
erased cell is joined. -/
def ScanInv (junk : Char) (n : Int) (v0 : List Char) (seen : List (Int × Int))
    (s : ScanState) : Prop :=
  Erases junk n seen v0 s.2 ∧
    ∃ reps : List (Int × Int), (reps.length : Int) = s.1 ∧
      (∀ r ∈ reps, OccAt junk n v0 r ∧ ¬ OccAt junk n s.2 r) ∧
      reps.Pairwise (fun a b => ¬ Relation.ReflTransGen (OccStep junk n v0) a b) ∧
      ∀ c, OccAt junk n v0 c → ¬ OccAt junk n s.2 c →
        ∃ r ∈ reps, Relation.ReflTransGen (OccStep junk n v0) r c


/-! ## Storage accessors -/

theorem setElem_eq_some {m x y : Int} {c : Char} {v v' : List Char}
    (h : setElem m x y c v = some v') :
    0 ≤ index m x y ∧ index m x y < v.length ∧ v' = v.set (index m x y).toNat c := by
  unfold setElem at h
  split at h
  · rename_i hb
    exact ⟨hb.1, hb.2, by simpa using h.symm⟩
  · cases h

theorem setElem_of_bounds {m x y : Int} (c : Char) {v : List Char}
    (h0 : 0 ≤ index m x y) (h1 : index m x y < v.length) :
    setElem m x y c v = some (v.set (index m x y).toNat c) := by
  unfold setElem
  rw [if_pos ⟨h0, h1⟩]

theorem getElem_of_bounds (junk : Char) {m x y : Int} {v : List Char}
    (h0 : 0 ≤ index m x y) (h1 : index m x y < v.length) :
    v[(index m x y).toNat]? = some (getElem junk m x y v) := by
  unfold getElem
  rw [if_pos h0]
  have : (index m x y).toNat < v.length := by omega
  simp [List.getD, List.getElem?_eq_getElem this]

theorem set_set_back {v : List Char} {i : Nat} {a b : Char} (h : v[i]? = some a) :
    (v.set i b).set i a = v := by
  rw [List.set_set]
  apply List.ext_getElem?
  intro j
  by_cases hj : i = j
  · subst hj
    have hi : i < v.length := by
      rcases Nat.lt_or_ge i v.length with h' | h'
      · exact h'
      · rw [List.getElem?_eq_none h'] at h; cases h
    simp [List.getElem?_set, hi, h]
  · rw [List.getElem?_set_ne hj]

theorem count_set_lt {v : List Char} {i : Nat} {a : Char} (b : Char) (h : v[i]? = some a)
    (hab : b ≠ a) : (v.set i b).count a + 1 = v.count a := by
  induction v generalizing i with
  | nil => simp at h
  | cons c cs ih =>
    cases i with
    | zero =>
      simp at h
      subst h
      simp [List.count_cons, hab]
    | succ j =>
      simp at h
      have := ih h
      simp only [List.set_cons_succ, List.count_cons]
      omega

/-! ## The backtracking search: frame, progress and totality -/

theorem tryDirs_false {call : Int → Int → Int → List Char → Run UtilState}
    (hc : Restoring call) (x y : Int) :
    ∀ (ds : List (Int × Int)) (s : Int) (g : List Char) (s' : Int) (g' : List Char),
      tryDirs call x y ds s g = Run.done (false, s', g') → s' = s ∧ g' = g := by
  intro ds
  induction ds with
  | nil =>
    intro s g s' g' h
    simp only [tryDirs, Run.done.injEq, Prod.mk.injEq, true_and] at h
    exact ⟨h.1.symm, h.2.symm⟩
  | cons d ds ih =>
    intro s g s' g' h
    simp only [tryDirs] at h
    split at h
    · simp at h
    · rename_i s1 g1 hcall
      obtain ⟨rfl, rfl⟩ := hc _ _ _ _ _ _ hcall
      exact ih _ _ _ _ h
    · cases h
    · cases h

theorem solveMazeUtil_false (junk : Char) (m n : Int) (dirs : List (Int × Int)) :
    ∀ k : Nat, Restoring (solveMazeUtil junk m n dirs k) := by
  intro k
  induction k with
  | zero =>
    intro x y s g s' g' h
    simp [solveMazeUtil] at h
  | succ k ih =>
    intro x y s g s' g' h
    simp only [solveMazeUtil] at h
    split at h
    · split at h
      · cases h
      · simp at h
    · split at h
      · rename_i hfree
        split at h
        · cases h
        · rename_i g1 hset
          obtain ⟨hb0, hb1, rfl⟩ := setElem_eq_some hset
          split at h
          · simp at h
          · rename_i s1 g2 htry
            obtain ⟨rfl, rfl⟩ := tryDirs_false ih x y _ _ _ _ _ htry
            split at h
            · cases h
            · rename_i g3 hset3
              obtain ⟨_, _, rfl⟩ := setElem_eq_some hset3
              simp only [Run.done.injEq, Prod.mk.injEq, true_and] at h
              obtain ⟨rfl, rfl⟩ := h
              have hcell := getElem_of_bounds junk hb0 hb1
              rw [hfree.1] at hcell
              exact ⟨by omega, set_set_back hcell⟩
          · cases h
          · cases h
      · simp only [Run.done.injEq, Prod.mk.injEq, true_and] at h
        exact ⟨h.1.symm, h.2.symm⟩

theorem isInRange_iff {m n x y : Int} :
    isInRange m n x y = true ↔ 0 ≤ x ∧ x < n ∧ 0 ≤ y ∧ y < m := by
  unfold isInRange
  simp only [Bool.and_eq_true, decide_eq_true_eq]
  constructor
  · rintro ⟨⟨⟨h1, h2⟩, h3⟩, h4⟩
    exact ⟨h2, h1, h4, h3⟩
  · rintro ⟨h1, h2, h3, h4⟩
    exact ⟨⟨⟨h2, h1⟩, h4⟩, h3⟩

theorem index_bounds {m n x y : Int} {len : Nat} (hr : isInRange m n x y = true)
    (ht : TerminalStored m n len) : 0 ≤ index m x y ∧ index m x y < len := by
  obtain ⟨hx0, hx1, hy0, hy1⟩ := isInRange_iff.mp hr
  obtain ⟨_, ht1⟩ := ht
  unfold index at *
  have h1 : 0 ≤ y * m := mul_nonneg hy0 (by omega)
  have h2 : 0 ≤ (m - 1 - y) * m := mul_nonneg (by omega) (by omega)
  constructor
  · omega
  · nlinarith

theorem tryDirs_true {call : Int → Int → Int → List Char → Run UtilState}
    (hc : Restoring call) (x y : Int) :
    ∀ (ds : List (Int × Int)) (s : Int) (g : List Char) (s' : Int) (g' : List Char),
      tryDirs call x y ds s g = Run.done (true, s', g') →
      ∃ d ∈ ds, call (x + d.1) (y + d.2) s g = Run.done (true, s', g') := by
  intro ds
  induction ds with
  | nil =>
    intro s g s' g' h
    simp [tryDirs] at h
  | cons d ds ih =>
    intro s g s' g' h
    simp only [tryDirs] at h
    split at h
    · rename_i s1 g1 hcall
      simp only [Run.done.injEq, Prod.mk.injEq, true_and] at h
      obtain ⟨rfl, rfl⟩ := h
      exact ⟨d, List.mem_cons_self _ _, hcall⟩
    · rename_i s1 g1 hcall
      obtain ⟨rfl, rfl⟩ := hc _ _ _ _ _ _ hcall
      obtain ⟨d', hd', h'⟩ := ih _ _ _ _ h
      exact ⟨d', List.mem_cons_of_mem _ hd', h'⟩
    · cases h
    · cases h

theorem tryDirs_total {call : Int → Int → Int → List Char → Run UtilState}
    (hc : Restoring call) (x y : Int) (g : List Char)
    (ht : ∀ x' y' s, ∃ r, call x' y' s g = Run.done r) :
    ∀ (ds : List (Int × Int)) (s : Int), ∃ r, tryDirs call x y ds s g = Run.done r := by
  intro ds
  induction ds with
  | nil => intro s; exact ⟨_, rfl⟩
  | cons d ds ih =>
    intro s
    obtain ⟨⟨ok, s1, g1⟩, hr⟩ := ht (x + d.1) (y + d.2) s
    cases ok with
    | true => exact ⟨(true, s1, g1), by simp only [tryDirs, hr]⟩
    | false =>
      obtain ⟨rfl, rfl⟩ := hc _ _ _ _ _ _ hr
      obtain ⟨r, hr'⟩ := ih s1
      exact ⟨r, by simp only [tryDirs, hr, hr']⟩

/-- A successful search stored the terminal cell, kept the vector length, and advanced the
step counter by at least one and by at most one more than the number of `'0'` entries. -/
theorem solveMazeUtil_true (junk : Char) (m n : Int) (dirs : List (Int × Int)) :
    ∀ (k : Nat) (x y s : Int) (g : List Char) (s' : Int) (g' : List Char),
      solveMazeUtil junk m n dirs k x y s g = Run.done (true, s', g') →
      g'.length = g.length ∧ TerminalStored m n g.length ∧ s < s' ∧
        s' ≤ s + g.count '0' + 1 := by
  intro k
  induction k with
  | zero =>
    intro x y s g s' g' h
    simp [solveMazeUtil] at h
  | succ k ih =>
    intro x y s g s' g' h
    simp only [solveMazeUtil] at h
    split at h
    · rename_i hterm
      split at h
      · cases h
      · rename_i g1 hset
        obtain ⟨hb0, hb1, rfl⟩ := setElem_eq_some hset
        simp only [Run.done.injEq, Prod.mk.injEq, true_and] at h
        obtain ⟨rfl, rfl⟩ := h
        obtain ⟨rfl, rfl⟩ := hterm
        refine ⟨by simp, ⟨hb0, hb1⟩, by omega, by omega⟩
    · split at h
      · rename_i hfree
        split at h
        · cases h
        · rename_i g1 hset
          obtain ⟨hb0, hb1, rfl⟩ := setElem_eq_some hset
          have hcell := getElem_of_bounds junk hb0 hb1
          rw [hfree.1] at hcell
          have hcount := count_set_lt '+' hcell (by decide)
          split at h
          · rename_i s1 g2 htry
            simp only [Run.done.injEq, Prod.mk.injEq, true_and] at h
            obtain ⟨rfl, rfl⟩ := h
            obtain ⟨d, _, hd⟩ :=
              tryDirs_true (solveMazeUtil_false junk m n dirs k) x y _ _ _ _ _ htry
            obtain ⟨h1, h2, h3, h4⟩ := ih _ _ _ _ _ _ hd
            simp only [List.length_set] at h1 h2
            refine ⟨h1, h2, by omega, by omega⟩
          · split at h
            · cases h
            · simp at h
          · cases h
          · cases h
      · simp at h

theorem solveMazeUtil_length (junk : Char) (m n : Int) (dirs : List (Int × Int))
    (k : Nat) (x y s : Int) (g : List Char) (r : UtilState)
    (h : solveMazeUtil junk m n dirs k x y s g = Run.done r) : r.2.2.length = g.length := by
  obtain ⟨ok, s', g'⟩ := r
  cases ok with
  | true => exact (solveMazeUtil_true junk m n dirs k x y s g s' g' h).1
  | false => rw [(solveMazeUtil_false junk m n dirs k x y s g s' g' h).2]

/-- With the terminal cell stored and a budget above the number of `'0'` entries, the search
runs to completion. -/
theorem solveMazeUtil_total (junk : Char) (m n : Int) (dirs : List (Int × Int)) :
    ∀ (k : Nat) (x y s : Int) (g : List Char), TerminalStored m n g.length →
      g.count '0' < k → ∃ r, solveMazeUtil junk m n dirs k x y s g = Run.done r := by
  intro k
  induction k with
  | zero => intro x y s g _ h; omega
  | succ k ih =>
    intro x y s g ht hk
    simp only [solveMazeUtil]
    split
    · rename_i hterm
      obtain ⟨rfl, rfl⟩ := hterm
      rw [setElem_of_bounds '+' ht.1 ht.2]
      exact ⟨_, rfl⟩
    · split
      · rename_i hfree
        obtain ⟨hb0, hb1⟩ := index_bounds hfree.2 ht
        have hcell := getElem_of_bounds junk hb0 hb1
        rw [hfree.1] at hcell
        have hcount := count_set_lt '+' hcell (by decide)
        rw [setElem_of_bounds '+' hb0 hb1]
        have hlen : (g.set (index m x y).toNat '+').length = g.length := by simp
        obtain ⟨⟨ok, s1, g2⟩, hr⟩ := tryDirs_total (solveMazeUtil_false junk m n dirs k) x y
          (g.set (index m x y).toNat '+')
          (fun x' y' s0 => ih x' y' s0 _ (by rw [hlen]; exact ht) (by omega)) dirs (s + 1)
        cases ok with
        | true => exact ⟨(true, s1, g2), by simp only [hr]⟩
        | false =>
          obtain ⟨rfl, rfl⟩ :=
            tryDirs_false (solveMazeUtil_false junk m n dirs k) x y _ _ _ _ _ hr
          simp only [hr]
          rw [setElem_of_bounds '0' hb0 (by rw [hlen]; exact hb1)]
          exact ⟨_, rfl⟩
      · exact ⟨_, rfl⟩

/-! ## Independence of the recursion budget -/

theorem tryDirs_mono {call call' : Int → Int → Int → List Char → Run UtilState}
    (hcc : ∀ x y s g, call x y s g ≠ Run.fuel → call' x y s g = call x y s g) (x y : Int) :
    ∀ (ds : List (Int × Int)) (s : Int) (g : List Char),
      tryDirs call x y ds s g ≠ Run.fuel →
      tryDirs call' x y ds s g = tryDirs call x y ds s g := by
  intro ds
  induction ds with
  | nil => intro s g _; rfl
  | cons d ds ih =>
    intro s g h
    simp only [tryDirs] at h ⊢
    have hcall : call (x + d.1) (y + d.2) s g ≠ Run.fuel := by
      intro hf
      rw [hf] at h
      exact h rfl
    rw [hcc _ _ _ _ hcall]
    split
    · rfl
    · rename_i s1 g1 heq
      rw [heq] at h
      exact ih _ _ h
    · rfl
    · rfl

/-- A run that does not exhaust its budget has the same outcome with one more unit of
budget. -/
theorem solveMazeUtil_fuel_succ (junk : Char) (m n : Int) (dirs : List (Int × Int)) :
    ∀ (k : Nat) (x y s : Int) (g : List Char),
      solveMazeUtil junk m n dirs k x y s g ≠ Run.fuel →
      solveMazeUtil junk m n dirs (k + 1) x y s g = solveMazeUtil junk m n dirs k x y s g := by
  intro k
  induction k with
  | zero =>
    intro x y s g h
    exact absurd rfl h
  | succ k ih =>
    intro x y s g h
    rw [solveMazeUtil] at h
    rw [solveMazeUtil]
    conv_rhs => rw [solveMazeUtil]
    split
    · rfl
    · split
      · rename_i hterm hfree
        rw [if_neg hterm, if_pos hfree] at h
        split
        · rfl
        · rename_i g1 hset
          rw [hset] at h
          simp only at h
          have htry :
              tryDirs (solveMazeUtil junk m n dirs k) x y dirs (s + 1) g1 ≠ Run.fuel := by
            intro hf
            rw [hf] at h
            exact h rfl
          rw [tryDirs_mono ih x y _ _ _ htry]
      · rfl

/-- With a budget above the number of `'0'` entries the search never exhausts it. -/
theorem solveMazeUtil_budget (junk : Char) (m n : Int) (dirs : List (Int × Int)) :
    ∀ (k : Nat) (x y s : Int) (g : List Char), g.count '0' < k →
      solveMazeUtil junk m n dirs k x y s g ≠ Run.fuel := by
  intro k
  induction k with
  | zero => intro x y s g h; omega
  | succ k ih =>
    intro x y s g hk
    rw [solveMazeUtil]
    split
    · split
      · exact fun h => by cases h
      · exact fun h => by cases h
    · split
      · rename_i hfree
        split
        · exact fun h => by cases h
        · rename_i g1 hset
          obtain ⟨hb0, hb1, rfl⟩ := setElem_eq_some hset
          have hcell := getElem_of_bounds junk hb0 hb1
          rw [hfree.1] at hcell
          have hcount := count_set_lt '+' hcell (by decide)
          have htry : ∀ (ds : List (Int × Int)) (s0 : Int),
              tryDirs (solveMazeUtil junk m n dirs k) x y ds s0
                (g.set (index m x y).toNat '+') ≠ Run.fuel := by
            intro ds
            induction ds with
            | nil => intro s0 h; cases h
            | cons d ds ihd =>
              intro s0
              simp only [tryDirs]
              have hcall := ih (x + d.1) (y + d.2) s0 (g.set (index m x y).toNat '+')
                (by omega)
              split
              · exact fun h => by cases h
              · rename_i s1 g2 heq
                obtain ⟨_, rfl⟩ := solveMazeUtil_false junk m n dirs k _ _ _ _ _ _ heq
                exact ihd s1
              · exact fun h => by cases h
              · rename_i heq
                exact absurd heq hcall
          have htry' := htry dirs (s + 1)
          split
          · exact fun h => by cases h
          · split
            · exact fun h => by cases h
            · exact fun h => by cases h
          · exact fun h => by cases h
          · rename_i heq
            exact absurd heq htry'
      · exact fun h => by cases h

/-- Any two budgets above the number of `'0'` entries give the same outcome. -/
theorem solveMazeUtil_budget_irrelevant (junk : Char) (m n : Int) (dirs : List (Int × Int))
    (x y s : Int) (g : List Char) :
    ∀ (k k' : Nat), g.count '0' < k → k ≤ k' →
      solveMazeUtil junk m n dirs k' x y s g = solveMazeUtil junk m n dirs k x y s g := by
  intro k k' hk hle
  induction hle with
  | refl => rfl
  | step hle ih =>
    rename_i j
    have hj : k ≤ j := hle
    rw [solveMazeUtil_fuel_succ junk m n dirs j x y s g
      (solveMazeUtil_budget junk m n dirs j x y s g (by omega)), ih]

/-! ## The permutation loop of `solveMazeBest` -/

theorem permSeq_eq : permSeq 24 [0, 1, 2, 3] =
    [[0, 1, 2, 3], [0, 1, 3, 2], [0, 2, 1, 3], [0, 2, 3, 1], [0, 3, 1, 2], [0, 3, 2, 1],
     [1, 0, 2, 3], [1, 0, 3, 2], [1, 2, 0, 3], [1, 2, 3, 0], [1, 3, 0, 2], [1, 3, 2, 0],
     [2, 0, 1, 3], [2, 0, 3, 1], [2, 1, 0, 3], [2, 1, 3, 0], [2, 3, 0, 1], [2, 3, 1, 0],
     [3, 0, 1, 2], [3, 0, 2, 1], [3, 1, 0, 2], [3, 1, 2, 0], [3, 2, 0, 1], [3, 2, 1, 0]] := by
  decide

theorem dirOrders_perm : ∀ q ∈ dirOrders, q.Perm dirs0 := by decide

theorem dirOrders_complete : ∀ w ∈ dirs0, ∀ x ∈ dirs0, ∀ y ∈ dirs0, ∀ z ∈ dirs0,
    [w, x, y, z].Nodup → [w, x, y, z] ∈ dirOrders := by decide

/-- The direction orders tried are exactly the arrangements of the direction list. -/
theorem mem_dirOrders_iff (p : List (Int × Int)) : p ∈ dirOrders ↔ p.Perm dirs0 := by
  constructor
  · exact dirOrders_perm p
  · intro h
    have hlen : p.length = 4 := by rw [h.length_eq]; rfl
    have hnd : p.Nodup := h.nodup_iff.mpr (by decide)
    have hmem : ∀ e ∈ p, e ∈ dirs0 := fun e he => h.subset he
    match p, hlen with
    | [w, x, y, z], _ =>
      exact dirOrders_complete w (hmem w (by simp)) x (hmem x (by simp)) y (hmem y (by simp))
        z (hmem z (by simp)) hnd

theorem permLoop_eq_loopOver (body : List Nat → BestState → Run BestState) (s : BestState) :
    permLoop body 24 [0, 1, 2, 3] s = loopOver body (permSeq 24 [0, 1, 2, 3]) s := by
  rfl

theorem copy_eq_src {src dst : List Char} (h : dst.length = src.length) :
    copy src dst = Run.done src := by
  unfold copy
  rw [if_pos (le_of_eq h.symm), List.drop_eq_nil_of_le (le_of_eq h), List.append_nil]

/-- One iteration of the loop of `solveMazeBest`, started with `g` equal to the saved
storage `v`: the storage is restored, and the record is replaced exactly when the run
succeeds with fewer steps. -/
theorem bestBody_spec (junk : Char) (m n : Int) (v : List Char) (inds : List Nat)
    (s : BestState) (hg : s.g = v) (hbest : s.best.length = v.length) (r : UtilState)
    (hr : solveMazeUtil junk m n (tmpDirs inds) (v.length + 1) 0 0 0 v = Run.done r) :
    bestBody junk m n v inds s =
      Run.done (if r.1 = true ∧ r.2.1 < s.min_path then
        { g := v, min_path := r.2.1, solution_found := true, best := r.2.2 }
        else s) := by
  obtain ⟨ok, st, g1⟩ := r
  have hlen : g1.length = v.length := solveMazeUtil_length _ _ _ _ _ _ _ _ _ _ hr
  unfold bestBody
  rw [hg, hr]
  simp only
  rw [copy_eq_src hlen, copy_eq_src (by omega : s.best.length = g1.length)]
  split
  · rfl
  · simp only [Run.bind]
    rw [← hg]

/-- Result of the loop of `solveMazeBest` over a list of index vectors when every run
completes: either no run beat the record and the state is unchanged, or the state records
the first run among those with the fewest steps. -/
theorem loopOver_bestBody (junk : Char) (m n : Int) (v : List Char) :
    ∀ (L : List (List Nat)) (s : BestState), s.g = v → s.best.length = v.length →
      (∀ i ∈ L, ∃ r, solveMazeUtil junk m n (tmpDirs i) (v.length + 1) 0 0 0 v = Run.done r) →
      (loopOver (bestBody junk m n v) L s = Run.done s ∧
        ∀ i ∈ L, ∀ st g1,
          solveMazeUtil junk m n (tmpDirs i) (v.length + 1) 0 0 0 v = Run.done (true, st, g1) →
          s.min_path ≤ st) ∨
      (∃ pre i post st g1, L = pre ++ i :: post ∧
        solveMazeUtil junk m n (tmpDirs i) (v.length + 1) 0 0 0 v = Run.done (true, st, g1) ∧
        st < s.min_path ∧
        loopOver (bestBody junk m n v) L s =
          Run.done { g := v, min_path := st, solution_found := true, best := g1 } ∧
        (∀ q ∈ pre, ∀ st' g',
          solveMazeUtil junk m n (tmpDirs q) (v.length + 1) 0 0 0 v = Run.done (true, st', g') →
          st < st') ∧
        (∀ q ∈ post, ∀ st' g',
          solveMazeUtil junk m n (tmpDirs q) (v.length + 1) 0 0 0 v = Run.done (true, st', g') →
          st ≤ st')) := by
  intro L
  induction L with
  | nil =>
    intro s _ _ _
    exact Or.inl ⟨rfl, by simp⟩
  | cons i L ih =>
    intro s hg hbest hall
    obtain ⟨⟨ok, st, g1⟩, hr⟩ := hall i (List.mem_cons_self _ _)
    have hall' : ∀ j ∈ L, ∃ r,
        solveMazeUtil junk m n (tmpDirs j) (v.length + 1) 0 0 0 v = Run.done r :=
      fun j hj => hall j (List.mem_cons_of_mem _ hj)
    have hbody := bestBody_spec junk m n v i s hg hbest _ hr
    have hlen : g1.length = v.length := solveMazeUtil_length _ _ _ _ _ _ _ _ _ _ hr
    by_cases hbeat : ok = true ∧ st < s.min_path
    · obtain ⟨rfl, hlt⟩ := hbeat
      simp only [hlt, and_self, if_true] at hbody
      rcases ih { g := v, min_path := st, solution_found := true, best := g1 } rfl hlen hall'
        with ⟨hloop, hmin⟩ | ⟨pre, j, post, st2, g2, hsplit, hrun, hlt2, hloop, hpre, hpost⟩
      · refine Or.inr ⟨[], i, L, st, g1, rfl, hr, hlt, ?_, by simp, hmin⟩
        simp only [loopOver, hbody, hloop]
      · refine Or.inr ⟨i :: pre, j, post, st2, g2, by rw [hsplit]; rfl, hrun,
          lt_trans hlt2 hlt, ?_, ?_, hpost⟩
        · simp only [loopOver, hbody, hloop]
        · intro q hq st' g' hq'
          rcases List.mem_cons.mp hq with rfl | hq
          · rw [hr] at hq'
            simp only [Run.done.injEq, Prod.mk.injEq, true_and] at hq'
            rw [← hq'.1]
            exact hlt2
          · exact hpre q hq st' g' hq'
    · have hbody' : bestBody junk m n v i s = Run.done s := by
        rw [hbody]
        simp only [hbeat, if_false]
      have hi : ∀ st' g',
          solveMazeUtil junk m n (tmpDirs i) (v.length + 1) 0 0 0 v = Run.done (true, st', g') →
          s.min_path ≤ st' := by
        intro st' g' h'
        rw [hr] at h'
        simp only [Run.done.injEq, Prod.mk.injEq] at h'
        obtain ⟨rfl, rfl, rfl⟩ := h'
        by_contra hcon
        exact hbeat ⟨rfl, by omega⟩
      rcases ih s hg hbest hall'
        with ⟨hloop, hmin⟩ | ⟨pre, j, post, st2, g2, hsplit, hrun, hlt2, hloop, hpre, hpost⟩
      · refine Or.inl ⟨by simp only [loopOver, hbody', hloop], ?_⟩
        intro q hq st' g' hq'
        rcases List.mem_cons.mp hq with rfl | hq
        · exact hi st' g' hq'
        · exact hmin q hq st' g' hq'
      · refine Or.inr ⟨i :: pre, j, post, st2, g2, by rw [hsplit]; rfl, hrun, hlt2, ?_, ?_,
          hpost⟩
        · simp only [loopOver, hbody', hloop]
        · intro q hq st' g' hq'
          rcases List.mem_cons.mp hq with rfl | hq
          · exact lt_of_lt_of_le hlt2 (hi st' g' hq')
          · exact hpre q hq st' g' hq'

/-! ## Entry points -/

theorem cell_eq_some {G : grid} {x y : Int} {c : Char} (junk : Char)
    (h : cell G x y = some c) :
    0 ≤ index G.m x y ∧ index G.m x y < G.g.length ∧ getElem junk G.m x y G.g = c := by
  unfold cell at h
  split at h
  · rename_i h0
    have hlt : (index G.m x y).toNat < G.g.length := by
      rcases Nat.lt_or_ge (index G.m x y).toNat G.g.length with h' | h'
      · exact h'
      · rw [List.getElem?_eq_none h'] at h; cases h
    refine ⟨h0, by omega, ?_⟩
    have := getElem_of_bounds junk h0 (by omega : index G.m x y < G.g.length)
    rw [h] at this
    exact (Option.some.inj this).symm
  · cases h

theorem runFrom_total (junk : Char) (G : grid) (ht : TerminalStored G.m G.n G.g.length)
    (dirs : List (Int × Int)) : ∃ r, runFrom junk G dirs = Run.done r :=
  solveMazeUtil_total junk G.m G.n dirs _ 0 0 0 G.g ht
    (Nat.lt_succ_of_le (List.count_le_length _ _))

/-- The value of `solveMazeBest` once the guard on the origin and terminal cells is passed
and the loop, seen as an iteration over the index vectors, has ended in state `s`. -/
theorem solveMazeBest_loop (junk : Char) (G : grid)
    (hguard : ¬ (getElem junk G.m 0 0 G.g = '1' ∨
      getElem junk G.m (G.n - 1) (G.m - 1) G.g = '1')) (s : BestState)
    (hloop : loopOver (bestBody junk G.m G.n G.g) (permSeq 24 [0, 1, 2, 3])
      { g := G.g, min_path := INT_MAX, solution_found := false, best := G.g } = Run.done s) :
    solveMazeBest junk G =
      if s.solution_found = false then Run.done (-1, { G with g := s.g })
      else (copy s.best s.g).bind fun g2 => Run.done (s.min_path, { G with g := g2 }) := by
  unfold solveMazeBest
  rw [if_neg hguard, permLoop_eq_loopOver, hloop]

/-- When the guard is passed, the terminal cell is stored and some run succeeds with fewer
than `INT_MAX` steps, `solveMazeBest` returns the step count and marked storage of the
first index vector among those whose run takes the fewest steps. -/
theorem solveMazeBest_found (junk : Char) (G : grid)
    (hguard : ¬ (getElem junk G.m 0 0 G.g = '1' ∨
      getElem junk G.m (G.n - 1) (G.m - 1) G.g = '1'))
    (ht : TerminalStored G.m G.n G.g.length)
    (hex : ∃ i ∈ permSeq 24 [0, 1, 2, 3], ∃ s g,
      runFrom junk G (tmpDirs i) = Run.done (true, s, g) ∧ s < INT_MAX) :
    ∃ pre i post s g1, permSeq 24 [0, 1, 2, 3] = pre ++ i :: post ∧
      runFrom junk G (tmpDirs i) = Run.done (true, s, g1) ∧
      (∀ q ∈ pre, ∀ s' g', runFrom junk G (tmpDirs q) = Run.done (true, s', g') → s < s') ∧
      (∀ q ∈ post, ∀ s' g', runFrom junk G (tmpDirs q) = Run.done (true, s', g') → s ≤ s') ∧
      solveMazeBest junk G = Run.done (s, { G with g := g1 }) := by
  rcases loopOver_bestBody junk G.m G.n G.g (permSeq 24 [0, 1, 2, 3])
      { g := G.g, min_path := INT_MAX, solution_found := false, best := G.g } rfl rfl
      (fun i _ => runFrom_total junk G ht (tmpDirs i))
    with ⟨_, hmin⟩ | ⟨pre, i, post, st, g1, hsplit, hrun, _, hloop, hpre, hpost⟩
  · obtain ⟨i, hi, s, g, hrun, hlt⟩ := hex
    have := hmin i hi s g hrun
    simp only at this
    omega
  · refine ⟨pre, i, post, st, g1, hsplit, hrun, hpre, hpost, ?_⟩
    have hlen : g1.length = G.g.length := solveMazeUtil_length _ _ _ _ _ _ _ _ _ _ hrun
    rw [solveMazeBest_loop junk G hguard _ hloop]
    simp only [Bool.true_eq_false, if_false]
    rw [copy_eq_src hlen.symm]
    rfl


/-! ## Claims about `solveMaze` and `solveMazeBest` -/

/-- C3: on a grid whose origin and terminal cells are stored and not Occupied, whose storage
has fewer than `INT_MAX - 1` entries, and on which the run of at least one arrangement of
the direction list succeeds, `solveMazeBest` returns the least step count `s` among the
successful runs started on the original grid, and leaves the storage `g1` marked by the first
direction order, in the order of `next_permutation`, whose run takes `s` steps. -/
theorem solveMazeBest_returns_first_minimum (junk : Char) (G : grid)
    (horigin : NotOccupied G 0 0) (hterminal : NotOccupied G (G.n - 1) (G.m - 1))
    (hsize : (G.g.length : Int) + 1 < INT_MAX)
    (hex : ∃ p, p.Perm dirs0 ∧ ∃ s g, runFrom junk G p = Run.done (true, s, g)) :
    ∃ pre p post s g1, dirOrders = pre ++ p :: post ∧
      runFrom junk G p = Run.done (true, s, g1) ∧
      (∀ q, q.Perm dirs0 → ∀ s' g', runFrom junk G q = Run.done (true, s', g') → s ≤ s') ∧
      (∀ q ∈ pre, ∀ s' g', runFrom junk G q = Run.done (true, s', g') → s < s') ∧
      solveMazeBest junk G = Run.done (s, { G with g := g1 }) := by
  obtain ⟨c0, hc0, hne0⟩ := horigin
  obtain ⟨c1, hc1, hne1⟩ := hterminal
  obtain ⟨_, _, hget0⟩ := cell_eq_some junk hc0
  obtain ⟨ht0, ht1, hget1⟩ := cell_eq_some junk hc1
  have hguard : ¬ (getElem junk G.m 0 0 G.g = '1' ∨
      getElem junk G.m (G.n - 1) (G.m - 1) G.g = '1') := by
    rw [hget0, hget1]
    exact fun h => h.elim hne0 hne1
  have hex' : ∃ i ∈ permSeq 24 [0, 1, 2, 3], ∃ s g,
      runFrom junk G (tmpDirs i) = Run.done (true, s, g) ∧ s < INT_MAX := by
    obtain ⟨p, hp, s, g, hrun⟩ := hex
    obtain ⟨i, hi, rfl⟩ := List.mem_map.mp ((mem_dirOrders_iff p).mpr hp)
    obtain ⟨_, _, _, hle⟩ := solveMazeUtil_true _ _ _ _ _ _ _ _ _ _ _ hrun
    have hcount : (G.g.count '0' : Int) ≤ G.g.length := by
      exact_mod_cast List.count_le_length _ _
    exact ⟨i, hi, s, g, hrun, by omega⟩
  obtain ⟨pre, i, post, s, g1, hsplit, hrun, hpre, hpost, hres⟩ :=
    solveMazeBest_found junk G hguard ⟨ht0, ht1⟩ hex'
  refine ⟨pre.map tmpDirs, tmpDirs i, post.map tmpDirs, s, g1, ?_, hrun, ?_, ?_, hres⟩
  · unfold dirOrders
    rw [hsplit, List.map_append, List.map_cons]
  · intro q hq s' g' hq'
    obtain ⟨j, hj, rfl⟩ := List.mem_map.mp ((mem_dirOrders_iff q).mpr hq)
    rw [hsplit] at hj
    rcases List.mem_append.mp hj with hj | hj
    · exact le_of_lt (hpre j hj s' g' hq')
    · rcases List.mem_cons.mp hj with rfl | hj
      · rw [hrun] at hq'
        simp only [Run.done.injEq, Prod.mk.injEq, true_and] at hq'
        exact le_of_eq hq'.1
      · exact hpost j hj s' g' hq'
  · intro q hq s' g' hq'
    obtain ⟨j, hj, rfl⟩ := List.mem_map.mp hq
    exact hpre j hj s' g' hq'

theorem solveMazeBest_returns_first_minimum_witness :
    ∃ pre p post s g1, dirOrders = pre ++ p :: post ∧
      runFrom 'x' smallFree p = Run.done (true, s, g1) ∧
      (∀ q, q.Perm dirs0 → ∀ s' g',
        runFrom 'x' smallFree q = Run.done (true, s', g') → s ≤ s') ∧
      (∀ q ∈ pre, ∀ s' g', runFrom 'x' smallFree q = Run.done (true, s', g') → s < s') ∧
      solveMazeBest 'x' smallFree = Run.done (s, { smallFree with g := g1 }) :=
  solveMazeBest_returns_first_minimum 'x' smallFree ⟨'0', by decide, by decide⟩
    ⟨'0', by decide, by decide⟩ (by decide)
    ⟨dirs0, List.Perm.refl _, 3, "++0+".toList, by decide⟩

/-- C4: when `solveMaze` returns `s > 0` on a grid whose storage has fewer than
`INT_MAX - 1` entries, `solveMazeBest` on the same grid returns a value `b` with
`0 < b ≤ s`. -/
theorem solveMazeBest_le_solveMaze (junk : Char) (G G' : grid) (s : Int)
    (hsize : (G.g.length : Int) + 1 < INT_MAX)
    (hsolve : solveMaze junk G = Run.done (s, G')) (hpos : 0 < s) :
    ∃ b G'', solveMazeBest junk G = Run.done (b, G'') ∧ 0 < b ∧ b ≤ s := by
  unfold solveMaze at hsolve
  split at hsolve
  · simp only [Run.done.injEq, Prod.mk.injEq] at hsolve
    omega
  · rename_i hguard
    split at hsolve
    · rename_i st g1 hrun
      simp only [Run.done.injEq, Prod.mk.injEq] at hsolve
      obtain ⟨rfl, _⟩ := hsolve
      have hrun' : runFrom junk G (tmpDirs [0, 1, 2, 3]) = Run.done (true, st, g1) := hrun
      obtain ⟨_, ht, _, hle⟩ := solveMazeUtil_true _ _ _ _ _ _ _ _ _ _ _ hrun
      have hcount : (G.g.count '0' : Int) ≤ G.g.length := by
        exact_mod_cast List.count_le_length _ _
      have hmem : [0, 1, 2, 3] ∈ permSeq 24 [0, 1, 2, 3] := by decide
      obtain ⟨pre, i, post, b, g2, hsplit, hbest, hpre, hpost, hres⟩ :=
        solveMazeBest_found junk G hguard ht
          ⟨[0, 1, 2, 3], hmem, st, g1, hrun', by omega⟩
      obtain ⟨_, _, hb, _⟩ := solveMazeUtil_true _ _ _ _ _ _ _ _ _ _ _ hbest
      refine ⟨b, _, hres, hb, ?_⟩
      rw [hsplit] at hmem
      rcases List.mem_append.mp hmem with hj | hj
      · exact le_of_lt (hpre _ hj st g1 hrun')
      · rcases List.mem_cons.mp hj with rfl | hj
        · rw [hrun'] at hbest
          simp only [Run.done.injEq, Prod.mk.injEq, true_and] at hbest
          exact le_of_eq hbest.1.symm
        · exact hpost _ hj st g1 hrun'
    · simp only [Run.done.injEq, Prod.mk.injEq] at hsolve
      omega
    · cases hsolve
    · cases hsolve

theorem solveMazeBest_le_solveMaze_witness :
    solveMaze 'x' smallFree = Run.done (3, { smallFree with g := "++0+".toList }) ∧
      ∃ b G'', solveMazeBest 'x' smallFree = Run.done (b, G'') ∧ 0 < b ∧ b ≤ 3 :=
  ⟨by decide, solveMazeBest_le_solveMaze 'x' smallFree
    { smallFree with g := "++0+".toList } 3 (by decide) (by decide) (by decide)⟩

/-- C5: whenever `solveMaze` returns 0 the grid afterwards is the grid before; and every
call of `solveMazeUtil` that returns `false` leaves the storage and the step counter as they
were on entry. -/
theorem solveMaze_zero_leaves_grid :
    (∀ (junk : Char) (G G' : grid), solveMaze junk G = Run.done (0, G') → G' = G) ∧
    (∀ (junk : Char) (m n : Int) (dirs : List (Int × Int)) (k : Nat) (x y s : Int)
      (g : List Char) (s' : Int) (g' : List Char),
      solveMazeUtil junk m n dirs k x y s g = Run.done (false, s', g') → s' = s ∧ g' = g) := by
  refine ⟨?_, fun junk m n dirs k => solveMazeUtil_false junk m n dirs k⟩
  intro junk G G' h
  unfold solveMaze at h
  split at h
  · simp only [Run.done.injEq, Prod.mk.injEq, true_and] at h
    exact h.symm
  · split at h
    · rename_i st g1 hrun
      simp only [Run.done.injEq, Prod.mk.injEq] at h
      obtain ⟨_, _, hlt, _⟩ := solveMazeUtil_true _ _ _ _ _ _ _ _ _ _ _ hrun
      omega
    · rename_i st g1 hrun
      obtain ⟨_, rfl⟩ := solveMazeUtil_false _ _ _ _ _ _ _ _ _ _ _ hrun
      simp only [Run.done.injEq, Prod.mk.injEq, true_and] at h
      exact h.symm
    · cases h
    · cases h

theorem solveMaze_zero_leaves_grid_witness :
    solveMaze 'x' smallWalled = Run.done (0, smallWalled) ∧ smallWalled = smallWalled ∧
    solveMazeUtil 'x' 2 2 dirs0 5 0 0 0 "0110".toList = Run.done (false, 0, "0110".toList) ∧
    ((0 : Int) = 0 ∧ "0110".toList = "0110".toList) :=
  ⟨by decide, solveMaze_zero_leaves_grid.1 'x' smallWalled smallWalled (by decide),
    by decide, solveMaze_zero_leaves_grid.2 'x' 2 2 dirs0 5 0 0 0 _ 0 _ (by decide)⟩

/-- C6: on a grid whose origin and terminal cells are stored and not Occupied, if the run of
no arrangement of the direction list succeeds, `solveMazeBest` returns -1 and the grid
afterwards is the grid before. -/
theorem solveMazeBest_no_path (junk : Char) (G : grid)
    (horigin : NotOccupied G 0 0) (hterminal : NotOccupied G (G.n - 1) (G.m - 1))
    (hnone : ∀ p, p.Perm dirs0 → ∀ s g, runFrom junk G p ≠ Run.done (true, s, g)) :
    solveMazeBest junk G = Run.done (-1, G) := by
  obtain ⟨c0, hc0, hne0⟩ := horigin
  obtain ⟨c1, hc1, hne1⟩ := hterminal
  obtain ⟨_, _, hget0⟩ := cell_eq_some junk hc0
  obtain ⟨ht0, ht1, hget1⟩ := cell_eq_some junk hc1
  have hguard : ¬ (getElem junk G.m 0 0 G.g = '1' ∨
      getElem junk G.m (G.n - 1) (G.m - 1) G.g = '1') := by
    rw [hget0, hget1]
    exact fun h => h.elim hne0 hne1
  rcases loopOver_bestBody junk G.m G.n G.g (permSeq 24 [0, 1, 2, 3])
      { g := G.g, min_path := INT_MAX, solution_found := false, best := G.g } rfl rfl
      (fun i _ => runFrom_total junk G ⟨ht0, ht1⟩ (tmpDirs i))
    with ⟨hloop, _⟩ | ⟨pre, i, post, st, g1, hsplit, hrun, _, _, _, _⟩
  · rw [solveMazeBest_loop junk G hguard _ hloop]
    rfl
  · exfalso
    have hi : tmpDirs i ∈ dirOrders := by
      unfold dirOrders
      rw [hsplit]
      exact List.mem_map_of_mem _ (by simp)
    exact hnone _ ((mem_dirOrders_iff _).mp hi) st g1 hrun

theorem smallWalled_runs : ∀ p ∈ dirOrders,
    runFrom 'x' smallWalled p = Run.done (false, 0, smallWalled.g) := by
  decide

theorem solveMazeBest_no_path_witness :
    solveMazeBest 'x' smallWalled = Run.done (-1, smallWalled) :=
  solveMazeBest_no_path 'x' smallWalled ⟨'0', by decide, by decide⟩
    ⟨'0', by decide, by decide⟩
    (fun p hp s g h => by
      rw [smallWalled_runs p ((mem_dirOrders_iff p).mpr hp)] at h
      simp at h)

/-! ## Claims about `updateAndCount` and the guards -/

/-- C8: for every grid and every out-of-range coordinate (`x < 0`, `x ≥ n`, `y < 0` or
`y ≥ m`), `updateAndCount` returns 0 and leaves the grid unchanged. -/
theorem updateAndCount_out_of_range (junk : Char) (G : grid) (x y : Int)
    (hout : x < 0 ∨ x ≥ G.n ∨ y < 0 ∨ y ≥ G.m) :
    updateAndCount junk G x y = Run.done (0, G) := by
  have hr : isInRange G.m G.n x y = false := by
    rw [← Bool.not_eq_true, isInRange_iff]
    omega
  unfold updateAndCount
  rw [if_pos hr]

theorem updateAndCount_out_of_range_witness :
    ((3 : Int) < 0 ∨ (3 : Int) ≥ wideFree.n ∨ (0 : Int) < 0 ∨ (0 : Int) ≥ wideFree.m) ∧
      updateAndCount 'x' wideFree 3 0 = Run.done (0, wideFree) :=
  ⟨by decide, updateAndCount_out_of_range 'x' wideFree 3 0 (by decide)⟩

/-- C9: on every grid whose origin `(0, 0)` or terminal cell `(n - 1, m - 1)` is Occupied,
`solveMaze` returns 0 and leaves the grid unchanged. -/
theorem solveMaze_endpoint_occupied (junk : Char) (G : grid)
    (hocc : cell G 0 0 = some '1' ∨ cell G (G.n - 1) (G.m - 1) = some '1') :
    solveMaze junk G = Run.done (0, G) := by
  have hguard : getElem junk G.m 0 0 G.g = '1' ∨
      getElem junk G.m (G.n - 1) (G.m - 1) G.g = '1' :=
    hocc.imp (fun h => (cell_eq_some junk h).2.2) (fun h => (cell_eq_some junk h).2.2)
  unfold solveMaze
  rw [if_pos hguard]

theorem solveMaze_endpoint_occupied_witness :
    (cell unitOccupied 0 0 = some '1' ∨
      cell unitOccupied (unitOccupied.n - 1) (unitOccupied.m - 1) = some '1') ∧
      solveMaze 'x' unitOccupied = Run.done (0, unitOccupied) :=
  ⟨by decide, solveMaze_endpoint_occupied 'x' unitOccupied (by decide)⟩

/-- C10, as stated, fails: on the one-cell grid whose cell is Occupied, `solveMazeBest` does
not return -1. -/
theorem solveMazeBest_endpoint_occupied_not_minus_one :
    cell unitOccupied 0 0 = some '1' ∧
      solveMazeBest 'x' unitOccupied ≠ Run.done (-1, unitOccupied) := by
  decide

/-- C10, amended: on every grid whose origin `(0, 0)` or terminal cell `(n - 1, m - 1)` is
Occupied, `solveMazeBest` returns 0 and leaves the grid unchanged. -/
theorem solveMazeBest_endpoint_occupied (junk : Char) (G : grid)
    (hocc : cell G 0 0 = some '1' ∨ cell G (G.n - 1) (G.m - 1) = some '1') :
    solveMazeBest junk G = Run.done (0, G) := by
  have hguard : getElem junk G.m 0 0 G.g = '1' ∨
      getElem junk G.m (G.n - 1) (G.m - 1) G.g = '1' :=
    hocc.imp (fun h => (cell_eq_some junk h).2.2) (fun h => (cell_eq_some junk h).2.2)
  unfold solveMazeBest
  rw [if_pos hguard]

theorem solveMazeBest_endpoint_occupied_witness :
    (cell unitOccupied 0 0 = some '1' ∨
      cell unitOccupied (unitOccupied.n - 1) (unitOccupied.m - 1) = some '1') ∧
      solveMazeBest 'x' unitOccupied = Run.done (0, unitOccupied) :=
  ⟨by decide, solveMazeBest_endpoint_occupied 'x' unitOccupied (by decide)⟩

/-! ## The row stride: grids with fewer rows than columns -/

theorem connected_isolated {S : List (Int × Int)} {a b : Int × Int}
    (hiso : ∀ c ∈ S, ¬ adjacent a c) (h : Connected S a b) : a = b := by
  rcases Relation.ReflTransGen.cases_head h with h | ⟨c, ⟨_, hc, hadj⟩, _⟩
  · exact h
  · exact absurd hadj (hiso c hc)

set_option maxRecDepth 100000 in
/-- The scenario of two disjoint blocks on a grid of twelve by twelve cells: called on a
cell of one block, `updateAndCount` returns 2 and leaves the grid as it was. -/
theorem updateAndCount_twoBlocks :
    updateAndCount 'x' twoBlocks 1 1 = Run.done (2, twoBlocks) := by
  decide

/-- C1 at a failing input: build the grid of two rows and three columns by `grid(2, 3)`,
`clearGrid()` and `setGrid` with the pair `(0, 1)`; every cell is then Free or Occupied.
`updateAndCount(2, 0)` returns 1, while the Occupied cells afterwards are `(2, 0)` and
`(0, 1)` (both read storage index 2), which form two connected components and not one. -/
theorem updateAndCount_wide_miscounts :
    clearGrid (newGrid 2 3) = wideFree ∧ setGrid wideFree [(0, 1)] = Run.done wideMarked ∧
      (∀ p ∈ cellsOf wideMarked, cell wideMarked p.1 p.2 = some '0' ∨
        cell wideMarked p.1 p.2 = some '1') ∧
      isInRange wideMarked.m wideMarked.n 2 0 = true ∧
      (∀ junk : Char, updateAndCount junk wideMarked 2 0 = Run.done (1, wideMarked)) ∧
      cellsWith wideMarked '1' = [(2, 0), (0, 1)] ∧
      IsComponentCount (cellsWith wideMarked '1') 2 ∧
      ¬ IsComponentCount (cellsWith wideMarked '1') 1 := by
  have hocc : cellsWith wideMarked '1' = [(2, 0), (0, 1)] := by decide
  have hiso1 : ∀ c ∈ [((2 : Int), (0 : Int)), (0, 1)], ¬ adjacent (2, 0) c := by decide
  have hiso2 : ∀ c ∈ [((2 : Int), (0 : Int)), (0, 1)], ¬ adjacent (0, 1) c := by decide
  refine ⟨by decide, by decide, by decide, by decide, fun junk => rfl, hocc, ?_, ?_⟩
  · rw [hocc]
    refine ⟨[(2, 0), (0, 1)], rfl, fun r hr => hr, ?_, ?_⟩
    · refine List.pairwise_pair.mpr ?_
      intro h
      exact absurd (connected_isolated hiso1 h) (by decide)
    · intro c hc
      exact ⟨c, hc, Relation.ReflTransGen.refl⟩
  · rw [hocc]
    rintro ⟨reps, hlen, hmem, _, hcover⟩
    match reps, hlen with
    | [r], _ =>
      obtain ⟨r1, hr1, h1⟩ := hcover (2, 0) (by simp)
      obtain ⟨r2, hr2, h2⟩ := hcover (0, 1) (by simp)
      rw [List.mem_singleton] at hr1 hr2
      rw [hr1] at h1
      rw [hr2] at h2
      have hr := hmem r (by simp)
      rcases List.mem_cons.mp hr with hr | hr
      · rw [hr] at h2
        exact absurd (connected_isolated hiso1 h2) (by decide)
      · rw [List.mem_singleton] at hr
        rw [hr] at h1
        exact absurd (connected_isolated hiso2 h1) (by decide)

/-- C2 at a failing input: on the all-Free grid of two rows and three columns `solveMaze`
returns 4, while afterwards five cells read PathMarker: `(2, 0)` and `(0, 1)` both read
storage index 2. -/
theorem solveMaze_wide_marks_five :
    clearGrid (newGrid 2 3) = wideFree ∧ cellsWith wideFree '0' = cellsOf wideFree ∧
      NotOccupied wideFree 0 0 ∧
      NotOccupied wideFree (wideFree.n - 1) (wideFree.m - 1) ∧
      (∀ junk : Char, solveMaze junk wideFree = Run.done (4, wideSolved)) ∧
      cellsWith wideSolved '+' = [(0, 0), (1, 0), (2, 0), (0, 1), (2, 1)] ∧
      (cellsWith wideSolved '+').length = 5 :=
  ⟨by decide, by decide, ⟨'0', by decide, by decide⟩, ⟨'0', by decide, by decide⟩,
    fun junk => rfl, by decide, by decide⟩

/-- C7 at a failing input: on the all-Free grid of two rows and three columns,
`updateAndCount(2, 0)` changes the state of the in-range cell `(0, 1)` from Free to
Occupied. -/
theorem updateAndCount_wide_changes_other_cell :
    clearGrid (newGrid 2 3) = wideFree ∧
      isInRange wideFree.m wideFree.n 2 0 = true ∧ isInRange wideFree.m wideFree.n 0 1 = true ∧
      (∀ junk : Char, updateAndCount junk wideFree 2 0 = Run.done (1, wideMarked)) ∧
      cell wideFree 0 1 = some '0' ∧ cell wideMarked 0 1 = some '1' :=
  ⟨by decide, by decide, by decide, fun junk => rfl, by decide, by decide⟩

/-! ## Snapshot, bulk occupation and storage accesses -/

/-- C11 at a failing input: on the one-cell grid left by `grid(1, 1)` and `clearGrid()`,
`saveGrid()` stores the snapshot, and `restoreGrid()` then empties `g` and copies the
snapshot into the empty vector, writing outside it; no grid with the saved cell states
results. -/
theorem restoreGrid_after_saveGrid_faults :
    clearGrid (newGrid 1 1) = unitFree ∧
      saveGrid unitFree = Run.done { unitFree with g_backup := "0".toList } ∧
      restoreGrid { unitFree with g_backup := "0".toList } = Run.fault ∧
      (saveGrid unitFree).bind restoreGrid ≠
        Run.done { unitFree with g_backup := "0".toList } := by
  decide

/-- C12 at a failing input: on the all-Free grid of two rows and two columns, `setGrid` with
the single out-of-range pair `(2, 0)` is not ignored: it writes storage index 2, and the
in-range cell `(0, 1)`, which is not in the list, changes from Free to Occupied. -/
theorem setGrid_out_of_range_writes :
    clearGrid (newGrid 2 2) = smallFree ∧ isInRange smallFree.m smallFree.n 2 0 = false ∧
      setGrid smallFree [(2, 0)] = Run.done smallStray ∧
      isInRange smallFree.m smallFree.n 0 1 = true ∧ (0, 1) ∉ [((2 : Int), (0 : Int))] ∧
      cell smallFree 0 1 = some '0' ∧ cell smallStray 0 1 = some '1' := by
  decide

theorem tryDirsTrace_erase {call : Int → Int → Int → List Char → Run UtilState}
    {callT : Int → Int → Int → List Char → Run TracedState}
    (hc : ∀ x y s g r t, callT x y s g = Run.done (r, t) → call x y s g = Run.done r)
    (x y : Int) :
    ∀ (ds : List (Int × Int)) (s : Int) (g : List Char) (r : UtilState) (t : List Int),
      tryDirsTrace callT x y ds s g = Run.done (r, t) → tryDirs call x y ds s g = Run.done r := by
  intro ds
  induction ds with
  | nil =>
    intro s g r t h
    simp only [tryDirsTrace, Run.done.injEq, Prod.mk.injEq] at h
    obtain ⟨rfl, _⟩ := h
    rfl
  | cons d ds ih =>
    intro s g r t h
    simp only [tryDirsTrace] at h
    split at h
    · rename_i s1 g1 t1 hcall
      simp only [Run.done.injEq, Prod.mk.injEq] at h
      obtain ⟨rfl, _⟩ := h
      simp only [tryDirs, hc _ _ _ _ _ _ hcall]
    · rename_i s1 g1 t1 hcall
      split at h
      · rename_i r1 t2 hrest
        simp only [Run.done.injEq, Prod.mk.injEq] at h
        obtain ⟨rfl, _⟩ := h
        simp only [tryDirs, hc _ _ _ _ _ _ hcall, ih _ _ _ _ hrest]
      · cases h
      · cases h
    · cases h
    · cases h

/-- Forgetting the list of indices, a completed instrumented call is the call itself. -/
theorem solveMazeUtilTrace_erase (junk : Char) (m n : Int) (dirs : List (Int × Int)) :
    ∀ (k : Nat) (x y s : Int) (g : List Char) (r : UtilState) (t : List Int),
      solveMazeUtilTrace junk m n dirs k x y s g = Run.done (r, t) →
      solveMazeUtil junk m n dirs k x y s g = Run.done r := by
  intro k
  induction k with
  | zero =>
    intro x y s g r t h
    simp [solveMazeUtilTrace] at h
  | succ k ih =>
    intro x y s g r t h
    rw [solveMazeUtilTrace] at h
    rw [solveMazeUtil]
    split at h
    · rename_i hterm
      rw [if_pos hterm]
      split at h
      · cases h
      · simp only [Run.done.injEq, Prod.mk.injEq] at h
        obtain ⟨rfl, _⟩ := h
        rfl
    · rename_i hterm
      rw [if_neg hterm]
      split at h
      · rename_i hfree
        rw [if_pos hfree]
        split at h
        · cases h
        · split at h
          · rename_i s1 g2 t1 htry
            simp only [Run.done.injEq, Prod.mk.injEq] at h
            obtain ⟨rfl, _⟩ := h
            rw [tryDirsTrace_erase ih x y _ _ _ _ _ htry]
          · rename_i s1 g2 t1 htry
            rw [tryDirsTrace_erase ih x y _ _ _ _ _ htry]
            split at h
            · cases h
            · rename_i g3 hset3
              simp only [Run.done.injEq, Prod.mk.injEq] at h
              obtain ⟨rfl, _⟩ := h
              simp only [hset3]
          · cases h
          · cases h
      · rename_i hfree
        rw [if_neg hfree]
        simp only [Run.done.injEq, Prod.mk.injEq] at h
        obtain ⟨rfl, _⟩ := h
        rfl

/-- C13 at a failing input: on the grid of two rows and two columns with storage `0110`,
`solveMaze` returns 0 after evaluating `getElem(0, -1, g)` and `getElem(-1, 0, g)`, that is
after reading the storage indices -2 and -1, which lie outside `[0, rows * cols)`. -/
theorem solveMaze_reads_outside_storage :
    (∀ junk : Char, solveMazeTrace junk smallWalled =
      Run.done ((0, smallWalled), [0, 3, 0, 0, 1, 2, -2, -1, 0])) ∧
      (∀ junk : Char, solveMaze junk smallWalled = Run.done (0, smallWalled)) ∧
      index smallWalled.m 0 (-1) = -2 ∧ index smallWalled.m (-1) 0 = -1 ∧
      ¬ (0 ≤ (-2 : Int) ∧ (-2 : Int) < smallWalled.m * smallWalled.n) ∧
      (smallWalled.g.length : Int) = smallWalled.m * smallWalled.n := by
  refine ⟨fun junk => ?_, fun junk => ?_, by decide, by decide, by decide, by decide⟩
  · simp [solveMazeTrace, solveMazeUtilTrace, tryDirsTrace, getElem, setElem, index,
      isInRange, smallWalled, dirs0]
  · simp [solveMaze, solveMazeUtil, tryDirs, getElem, setElem, index, isInRange,
      smallWalled, dirs0]

/-- C14 at a failing input: on the all-Free grid of three rows and four columns `solveMaze`
returns `3 + 4 - 1 = 6`, but the cells that read PathMarker afterwards include `(0, 1)` and
`(0, 2)`, which lie neither in the top row nor in the rightmost column (they share storage
indices 3 and 6 with `(3, 0)` and `(3, 1)`).  On the all-Free grid of three rows and three
columns the result is 5 with marks on `(0,0), (1,0), (2,0), (2,1), (2,2)`. -/
theorem solveMaze_broad_marks_off_route :
    clearGrid (newGrid 3 4) = broadFree ∧
      (∀ junk : Char, solveMaze junk broadFree = Run.done (6, broadSolved)) ∧
      cellsWith broadSolved '+' =
        [(0, 0), (1, 0), (2, 0), (3, 0), (0, 1), (3, 1), (0, 2), (3, 2)] ∧
      (∀ junk : Char, solveMaze junk cubeFree = Run.done (5, cubeSolved)) ∧
      cellsWith cubeSolved '+' = [(0, 0), (1, 0), (2, 0), (2, 1), (2, 2)] :=
  ⟨by decide, fun _ => rfl, by decide, fun _ => rfl, by decide⟩

set_option maxRecDepth 100000 in
/-- C20: on the grid `detour` of five rows and five columns, whose cells are all Free or
Occupied and whose origin and terminal are Free, `solveMazeBest` returns 11, while the Free
cells hold a 4-adjacent path of 9 cells from the origin to the terminal; so a shortest Free
path has fewer cells than the best path found. -/
theorem solveMazeBest_not_shortest :
    detour.m = detour.n ∧
      (∀ c ∈ cellsOf detour, cell detour c.1 c.2 = some '0' ∨ cell detour c.1 c.2 = some '1') ∧
      cell detour 0 0 = some '0' ∧ cell detour (detour.n - 1) (detour.m - 1) = some '0' ∧
      (∃ G', solveMazeBest 'x' detour = Run.done (11, G')) ∧
      ∃ p, IsPath (cellsWith detour '0') (0, 0) (detour.n - 1, detour.m - 1) p ∧
        p.Nodup ∧ p.length = 9 := by
  refine ⟨by decide, by decide, by decide, by decide,
    ⟨{ detour with g := "+++++0000+001++001+1001++".toList }, by decide⟩,
    [(0, 0), (1, 0), (2, 0), (3, 0), (3, 1), (3, 2), (3, 3), (3, 4), (4, 4)], ?_, by decide,
    by decide⟩
  refine ⟨by decide, by decide, ?_, by decide⟩
  simp only [List.chain'_cons, List.chain'_singleton, and_true]
  decide

/-! ## Order independence of `setGrid` -/

theorem setElem_length {m x y : Int} {c : Char} {v v' : List Char}
    (h : setElem m x y c v = some v') : v'.length = v.length := by
  obtain ⟨_, _, rfl⟩ := setElem_eq_some h
  simp

theorem setElem_none_iff {m x y : Int} {c : Char} {v : List Char} :
    setElem m x y c v = none ↔ ¬ (0 ≤ index m x y ∧ index m x y < v.length) := by
  unfold setElem
  split <;> simp_all

theorem setAll_swap (m : Int) (a b : Int × Int) (l : List (Int × Int)) (g : List Char) :
    setAll m (a :: b :: l) g = setAll m (b :: a :: l) g := by
  simp only [setAll]
  by_cases ha : 0 ≤ index m a.1 a.2 ∧ index m a.1 a.2 < g.length
  · by_cases hb : 0 ≤ index m b.1 b.2 ∧ index m b.1 b.2 < g.length
    · rw [setElem_of_bounds '1' ha.1 ha.2, setElem_of_bounds '1' hb.1 hb.2]
      simp only
      rw [setElem_of_bounds '1' hb.1 (by simpa using hb.2),
        setElem_of_bounds '1' ha.1 (by simpa using ha.2)]
      simp only
      by_cases hab : (index m a.1 a.2).toNat = (index m b.1 b.2).toNat
      · rw [hab]
      · rw [List.set_comm _ _ _ hab]
    · rw [setElem_of_bounds '1' ha.1 ha.2, setElem_none_iff.mpr hb]
      simp only
      rw [setElem_none_iff.mpr (by simpa using hb)]
  · rw [setElem_none_iff.mpr ha]
    simp only
    by_cases hb : 0 ≤ index m b.1 b.2 ∧ index m b.1 b.2 < g.length
    · rw [setElem_of_bounds '1' hb.1 hb.2]
      simp only
      rw [setElem_none_iff.mpr (by simpa using ha)]
    · rw [setElem_none_iff.mpr hb]

theorem setAll_perm (m : Int) {l1 l2 : List (Int × Int)} (h : l1.Perm l2) :
    ∀ g : List Char, setAll m l1 g = setAll m l2 g := by
  induction h with
  | nil => intro g; rfl
  | cons a _ ih =>
    intro g
    simp only [setAll]
    split
    · rfl
    · exact ih _
  | swap a b l => intro g; exact setAll_swap m b a l g
  | trans _ _ ih1 ih2 => intro g; rw [ih1, ih2]

/-- C15: for every grid and every two coordinate lists that are permutations of each other,
`setGrid` with either list has the same outcome, and so has a following `updateAndCount` at
any coordinate. -/
theorem setGrid_order_independent (G : grid) (l1 l2 : List (Int × Int)) (h : l1.Perm l2) :
    setGrid G l1 = setGrid G l2 ∧
      ∀ (junk : Char) (x y : Int),
        ((setGrid G l1).bind fun G1 => updateAndCount junk G1 x y) =
          (setGrid G l2).bind fun G2 => updateAndCount junk G2 x y := by
  have heq : setGrid G l1 = setGrid G l2 := by
    unfold setGrid
    rw [setAll_perm G.m h]
  exact ⟨heq, fun junk x y => by rw [heq]⟩

theorem setGrid_order_independent_witness :
    [((0 : Int), (0 : Int)), (1, 1)].Perm [(1, 1), (0, 0)] ∧
      setGrid smallFree [(0, 0), (1, 1)] = setGrid smallFree [(1, 1), (0, 0)] ∧
      ∀ (junk : Char) (x y : Int),
        ((setGrid smallFree [(0, 0), (1, 1)]).bind fun G1 => updateAndCount junk G1 x y) =
          (setGrid smallFree [(1, 1), (0, 0)]).bind fun G2 => updateAndCount junk G2 x y :=
  ⟨List.Perm.swap _ _ _,
    setGrid_order_independent smallFree [(0, 0), (1, 1)] [(1, 1), (0, 0)]
      (List.Perm.swap _ _ _)⟩

/-! ## Termination of the search -/

theorem copy_ne_fuel (src dst : List Char) : copy src dst ≠ Run.fuel := by
  unfold copy
  split <;> exact fun h => by cases h

theorem bestBody_ne_fuel (junk : Char) (m n : Int) (v : List Char) (inds : List Nat)
    (s : BestState) : bestBody junk m n v inds s ≠ Run.fuel := by
  unfold bestBody
  have hutil := solveMazeUtil_budget junk m n (tmpDirs inds) (s.g.length + 1) 0 0 0 s.g
    (Nat.lt_succ_of_le (List.count_le_length _ _))
  split
  · rename_i ok steps g1 _
    split
    · have h1 := copy_ne_fuel g1 s.best
      have h2 := copy_ne_fuel v g1
      cases hc1 : copy g1 s.best with
      | done b1 =>
        cases hc2 : copy v g1 with
        | done g2 => exact fun h => by cases h
        | fault => exact fun h => by cases h
        | fuel => exact absurd hc2 h2
      | fault => exact fun h => by cases h
      | fuel => exact absurd hc1 h1
    · have h2 := copy_ne_fuel v g1
      cases hc2 : copy v g1 with
      | done g2 => exact fun h => by cases h
      | fault => exact fun h => by cases h
      | fuel => exact absurd hc2 h2
  · exact fun h => by cases h
  · rename_i heq
    exact absurd heq hutil

theorem loopOver_ne_fuel {body : List Nat → BestState → Run BestState}
    (hb : ∀ i s, body i s ≠ Run.fuel) :
    ∀ (L : List (List Nat)) (s : BestState), loopOver body L s ≠ Run.fuel := by
  intro L
  induction L with
  | nil => intro s h; cases h
  | cons i L ih =>
    intro s
    simp only [loopOver]
    split
    · exact ih _
    · exact fun h => by cases h
    · rename_i heq
      exact absurd heq (hb i s)

/-- C19: with a budget above the number of `'0'` entries, hence with a budget of one more
than the number of stored cells, `solveMazeUtil` never exhausts its recursion budget, from
any coordinate and with any direction list; `solveMaze` and `solveMazeBest` never exhaust
theirs; and when the terminal cell is stored both return a result. -/
theorem solveMaze_terminates :
    (∀ (junk : Char) (m n : Int) (dirs : List (Int × Int)) (k : Nat) (x y s : Int)
      (g : List Char), g.count '0' < k →
      solveMazeUtil junk m n dirs k x y s g ≠ Run.fuel) ∧
    (∀ (junk : Char) (m n : Int) (dirs : List (Int × Int)) (x y s : Int) (g : List Char),
      solveMazeUtil junk m n dirs (g.length + 1) x y s g ≠ Run.fuel) ∧
    (∀ (junk : Char) (G : grid),
      solveMaze junk G ≠ Run.fuel ∧ solveMazeBest junk G ≠ Run.fuel) ∧
    (∀ (junk : Char) (G : grid), TerminalStored G.m G.n G.g.length →
      (∃ r, solveMaze junk G = Run.done r) ∧ ∃ r, solveMazeBest junk G = Run.done r) := by
  refine ⟨fun junk m n dirs k x y s g h => solveMazeUtil_budget junk m n dirs k x y s g h,
    fun junk m n dirs x y s g => solveMazeUtil_budget junk m n dirs _ x y s g
      (Nat.lt_succ_of_le (List.count_le_length _ _)), ?_, ?_⟩
  · intro junk G
    have hutil := solveMazeUtil_budget junk G.m G.n dirs0 (G.g.length + 1) 0 0 0 G.g
      (Nat.lt_succ_of_le (List.count_le_length _ _))
    constructor
    · unfold solveMaze
      split
      · exact fun h => by cases h
      · split
        · exact fun h => by cases h
        · exact fun h => by cases h
        · exact fun h => by cases h
        · rename_i heq
          exact absurd heq hutil
    · unfold solveMazeBest
      split
      · exact fun h => by cases h
      · rw [permLoop_eq_loopOver]
        split
        · rename_i s _
          split
          · exact fun h => by cases h
          · have hc := copy_ne_fuel s.best s.g
            cases hcc : copy s.best s.g with
            | done g2 => exact fun h => by cases h
            | fault => exact fun h => by cases h
            | fuel => exact absurd hcc hc
        · exact fun h => by cases h
        · rename_i heq
          exact absurd heq (loopOver_ne_fuel (bestBody_ne_fuel junk G.m G.n G.g) _ _)
  · intro junk G ht
    constructor
    · obtain ⟨⟨ok, st, g1⟩, hr⟩ := runFrom_total junk G ht dirs0
      unfold runFrom at hr
      unfold solveMaze
      split
      · exact ⟨_, rfl⟩
      · rw [hr]
        cases ok with
        | true => exact ⟨_, rfl⟩
        | false => exact ⟨_, rfl⟩
    · by_cases hguard : getElem junk G.m 0 0 G.g = '1' ∨
          getElem junk G.m (G.n - 1) (G.m - 1) G.g = '1'
      · unfold solveMazeBest
        rw [if_pos hguard]
        exact ⟨_, rfl⟩
      · rcases loopOver_bestBody junk G.m G.n G.g (permSeq 24 [0, 1, 2, 3])
            { g := G.g, min_path := INT_MAX, solution_found := false, best := G.g } rfl rfl
            (fun i _ => runFrom_total junk G ht (tmpDirs i))
          with ⟨hloop, _⟩ | ⟨pre, i, post, st, g1, _, hrun, _, hloop, _, _⟩
        · rw [solveMazeBest_loop junk G hguard _ hloop]
          exact ⟨_, rfl⟩
        · have hlen : g1.length = G.g.length := solveMazeUtil_length _ _ _ _ _ _ _ _ _ _ hrun
          rw [solveMazeBest_loop junk G hguard _ hloop]
          simp only [Bool.true_eq_false, if_false]
          rw [copy_eq_src hlen.symm]
          exact ⟨_, rfl⟩

theorem solveMaze_terminates_witness :
    TerminalStored smallFree.m smallFree.n smallFree.g.length ∧
      ((∃ r, solveMaze 'x' smallFree = Run.done r) ∧
        ∃ r, solveMazeBest 'x' smallFree = Run.done r) ∧
      smallFree.g.count '0' < 5 ∧
      solveMazeUtil 'x' 2 2 dirs0 5 0 0 0 smallFree.g ≠ Run.fuel :=
  ⟨⟨by decide, by decide⟩, solveMaze_terminates.2.2.2 'x' smallFree ⟨by decide, by decide⟩,
    by decide,
    solveMaze_terminates.1 'x' 2 2 dirs0 5 0 0 0 smallFree.g (by decide)⟩

/-! ## Square grids: storage indices and cells -/

theorem index_inj_square {n x y x' y' : Int} (h : isInRange n n x y = true)
    (h' : isInRange n n x' y' = true) (he : index n x y = index n x' y') :
    x = x' ∧ y = y' := by
  obtain ⟨hx0, hx1, hy0, hy1⟩ := isInRange_iff.mp h
  obtain ⟨hx0', hx1', hy0', hy1'⟩ := isInRange_iff.mp h'
  unfold index at he
  have hy : y = y' := by
    rcases lt_trichotomy y y' with hlt | heq | hgt
    · have h1 : (y + 1) * n ≤ y' * n := mul_le_mul_of_nonneg_right (by omega) (by omega)
      have h2 : (y + 1) * n = y * n + n := by ring
      omega
    · exact heq
    · have h1 : (y' + 1) * n ≤ y * n := mul_le_mul_of_nonneg_right (by omega) (by omega)
      have h2 : (y' + 1) * n = y' * n + n := by ring
      omega
  subst hy
  exact ⟨by omega, rfl⟩

theorem getElem_set_same (junk : Char) {m x y : Int} (val : Char) {v : List Char}
    (h0 : 0 ≤ index m x y) (h1 : index m x y < v.length) :
    getElem junk m x y (v.set (index m x y).toNat val) = val := by
  unfold getElem
  rw [if_pos h0]
  have hlt : (index m x y).toNat < v.length := by omega
  simp [List.getD, List.getElem?_set, hlt]

theorem getElem_set_other (junk : Char) {m x y x' y' : Int} (val : Char) (v : List Char)
    (h0 : 0 ≤ index m x y) (hne : index m x' y' ≠ index m x y) :
    getElem junk m x' y' (v.set (index m x y).toNat val) = getElem junk m x' y' v := by
  unfold getElem
  split
  · rename_i h0'
    have hnat : (index m x y).toNat ≠ (index m x' y').toNat := by omega
    simp [List.getD, List.getElem?_set_ne hnat]
  · rfl

/-- On a square grid whose terminal cell is stored, writing an in-range cell changes that
cell and no other in-range cell. -/
theorem getElem_set_square (junk : Char) {n : Int} {v : List Char} (val : Char)
    (ht : TerminalStored n n v.length) {x y x' y' : Int}
    (h : isInRange n n x y = true) (h' : isInRange n n x' y' = true) :
    getElem junk n x' y' (v.set (index n x y).toNat val) =
      if (x', y') = (x, y) then val else getElem junk n x' y' v := by
  obtain ⟨hb0, hb1⟩ := index_bounds h ht
  by_cases heq : (x', y') = (x, y)
  · rw [if_pos heq]
    obtain ⟨rfl, rfl⟩ := Prod.mk.inj heq
    exact getElem_set_same junk val hb0 hb1
  · rw [if_neg heq]
    apply getElem_set_other junk val v hb0
    intro he
    obtain ⟨rfl, rfl⟩ := index_inj_square h' h he
    exact heq rfl

theorem unit_step_adjacent {d : Int × Int} (hd : d.1.natAbs + d.2.natAbs = 1) (x y : Int) :
    adjacent (x, y) (x + d.1, y + d.2) := by
  unfold adjacent
  simp only
  omega

/-! ## Square grids: a successful search marks a path -/

/-- A successful call of `solveMazeUtil` at `(x, y)` on a square grid marks the cells of a
self-avoiding path from `(x, y)` to the terminal cell, all of them `'0'` before the call
except possibly the terminal cell, and advances the counter by the number of these cells. -/
theorem solveMazeUtil_path (junk : Char) (n : Int) (hn : 1 ≤ n) (dirs : List (Int × Int))
    (hdirs : UnitDirs dirs) :
    ∀ (k : Nat) (x y s : Int) (g : List Char) (s' : Int) (g' : List Char),
      TerminalStored n n g.length →
      solveMazeUtil junk n n dirs k x y s g = Run.done (true, s', g') →
      ∃ p : List (Int × Int), p.head? = some (x, y) ∧ p.getLast? = some (n - 1, n - 1) ∧
        p.Chain' adjacent ∧ p.Nodup ∧ (p.length : Int) = s' - s ∧
        (∀ c ∈ p, isInRange n n c.1 c.2 = true ∧
          (c = (n - 1, n - 1) ∨ getElem junk n c.1 c.2 g = '0')) ∧
        g'.length = g.length ∧
        ∀ a b, isInRange n n a b = true →
          getElem junk n a b g' = if (a, b) ∈ p then '+' else getElem junk n a b g := by
  intro k
  induction k with
  | zero =>
    intro x y s g s' g' _ h
    simp [solveMazeUtil] at h
  | succ k ih =>
    intro x y s g s' g' ht h
    simp only [solveMazeUtil] at h
    split at h
    · rename_i hterm
      obtain ⟨rfl, rfl⟩ := hterm
      split at h
      · cases h
      · rename_i g1 hset
        obtain ⟨hb0, hb1, rfl⟩ := setElem_eq_some hset
        simp only [Run.done.injEq, Prod.mk.injEq, true_and] at h
        obtain ⟨rfl, rfl⟩ := h
        have hr : isInRange n n (n - 1) (n - 1) = true := isInRange_iff.mpr (by omega)
        refine ⟨[(n - 1, n - 1)], rfl, rfl, List.chain'_singleton _, List.nodup_singleton _,
          by simp, ?_, by simp, ?_⟩
        · intro c hc
          rw [List.mem_singleton] at hc
          subst hc
          exact ⟨hr, Or.inl rfl⟩
        · intro a b hab
          rw [getElem_set_square junk '+' ht hr hab]
          simp only [List.mem_singleton]
    · rename_i hterm
      split at h
      · rename_i hfree
        split at h
        · cases h
        · rename_i g1 hset
          obtain ⟨hb0, hb1, rfl⟩ := setElem_eq_some hset
          split at h
          · rename_i s1 g2 htry
            simp only [Run.done.injEq, Prod.mk.injEq, true_and] at h
            obtain ⟨rfl, rfl⟩ := h
            obtain ⟨d, hd, hcall⟩ :=
              tryDirs_true (solveMazeUtil_false junk n n dirs k) x y _ _ _ _ _ htry
            have ht1 : TerminalStored n n (g.set (index n x y).toNat '+').length := by
              simpa using ht
            obtain ⟨p, hhead, hlast, hchain, hnodup, hlen, hcells, hlen', hmarks⟩ :=
              ih _ _ _ _ _ _ ht1 hcall
            have hxy : getElem junk n x y (g.set (index n x y).toNat '+') = '+' :=
              getElem_set_same junk '+' hb0 hb1
            have hnotin : (x, y) ∉ p := by
              intro hmem
              rcases (hcells _ hmem).2 with heq | h0
              · exact hterm (Prod.mk.inj heq)
              · simp only at h0
                rw [hxy] at h0
                exact absurd h0 (by decide)
            refine ⟨(x, y) :: p, rfl, ?_, ?_, List.nodup_cons.mpr ⟨hnotin, hnodup⟩, ?_, ?_,
              by simpa using hlen', ?_⟩
            · cases p with
              | nil => simp at hhead
              | cons c cs => simpa [List.getLast?_cons_cons] using hlast
            · cases p with
              | nil => exact List.chain'_singleton _
              | cons c cs =>
                simp only [List.head?_cons, Option.some.injEq] at hhead
                subst hhead
                exact List.Chain'.cons (unit_step_adjacent (hdirs d hd) x y) hchain
            · simp only [List.length_cons]
              push_cast
              omega
            · intro c hc
              rcases List.mem_cons.mp hc with rfl | hc
              · exact ⟨hfree.2, Or.inr hfree.1⟩
              · obtain ⟨hr, hor⟩ := hcells c hc
                refine ⟨hr, hor.imp id fun h0 => ?_⟩
                rw [getElem_set_square junk '+' ht hfree.2 hr] at h0
                split at h0
                · exact absurd h0 (by decide)
                · exact h0
            · intro a b hab
              rw [hmarks a b hab, getElem_set_square junk '+' ht hfree.2 hab]
              by_cases hp : (a, b) ∈ p
              · simp [hp]
              · by_cases heq : (a, b) = (x, y)
                · simp [heq]
                · simp [hp, heq]
          · split at h
            · cases h
            · simp at h
          · cases h
          · cases h
      · simp at h

/-! ## Cells of a grid -/

theorem cellsOf_eq (G : grid) : cellsOf G =
    (List.range G.m.toNat).flatMap fun i =>
      (List.range G.n.toNat).map fun (j : Nat) => ((j : Int), (i : Int)) := by
  unfold cellsOf
  congr 1
  funext i
  simp only [List.bind_eq_flatMap, List.pure_def]
  induction (List.range G.n.toNat) with
  | nil => rfl
  | cons a l ih =>
    simp only [List.flatMap_cons, List.map_append, List.map_cons, List.map_nil, ih]
    rfl

theorem mem_cellsOf {G : grid} {c : Int × Int} :
    c ∈ cellsOf G ↔ isInRange G.m G.n c.1 c.2 = true := by
  rw [cellsOf_eq, isInRange_iff]
  simp only [List.mem_flatMap, List.mem_map, List.mem_range]
  constructor
  · rintro ⟨i, hi, j, hj, rfl⟩
    dsimp only
    omega
  · rintro ⟨hx0, hx1, hy0, hy1⟩
    refine ⟨c.2.toNat, by omega, c.1.toNat, by omega, ?_⟩
    apply Prod.ext
    · dsimp only
      omega
    · dsimp only
      omega

theorem cellsOf_nodup (G : grid) : (cellsOf G).Nodup := by
  rw [cellsOf_eq, List.nodup_flatMap]
  constructor
  · intro i _
    apply List.Nodup.map _ (List.nodup_range _)
    intro a b hab
    simp only [Prod.mk.injEq, Nat.cast_inj, and_true] at hab
    exact hab
  · apply List.Pairwise.imp _ (List.nodup_range _)
    intro a b hab
    simp only [Function.onFun]
    rw [List.disjoint_iff_ne]
    intro p hp q hq hpq
    obtain ⟨j, _, rfl⟩ := List.mem_map.mp hp
    obtain ⟨j', _, rfl⟩ := List.mem_map.mp hq
    simp only [Prod.mk.injEq, Nat.cast_inj] at hpq
    exact hab hpq.2

theorem unitDirs_dirs0 : UnitDirs dirs0 := by
  unfold UnitDirs
  decide

theorem mem_cellsWith {G : grid} {ch : Char} {c : Int × Int} :
    c ∈ cellsWith G ch ↔ isInRange G.m G.n c.1 c.2 = true ∧ cell G c.1 c.2 = some ch := by
  unfold cellsWith
  rw [List.mem_filter, mem_cellsOf]
  simp

theorem cellsWith_nodup (G : grid) (ch : Char) : (cellsWith G ch).Nodup := by
  unfold cellsWith
  exact (cellsOf_nodup G).filter _

theorem cell_of_bounds (junk : Char) {G : grid} {x y : Int}
    (h0 : 0 ≤ index G.m x y) (h1 : index G.m x y < G.g.length) :
    cell G x y = some (getElem junk G.m x y G.g) := by
  unfold cell
  rw [if_pos h0]
  exact getElem_of_bounds junk h0 h1

/-- On a square grid of side at least one whose in-range cells are all stored, the terminal
cell is stored. -/
theorem terminalStored_of_cells {G : grid} (hsq : G.m = G.n) (hn : 1 ≤ G.n)
    (hcells : ∀ c ∈ cellsOf G, cell G c.1 c.2 = some '0' ∨ cell G c.1 c.2 = some '1') :
    TerminalStored G.n G.n G.g.length := by
  have hr : isInRange G.m G.n (G.n - 1) (G.n - 1) = true :=
    isInRange_iff.mpr (by omega)
  have hmem : ((G.n - 1, G.n - 1) : Int × Int) ∈ cellsOf G := mem_cellsOf.mpr hr
  rcases hcells _ hmem with h | h
  · obtain ⟨h0, h1, _⟩ := cell_eq_some '0' h
    rw [hsq] at h0 h1
    exact ⟨h0, h1⟩
  · obtain ⟨h0, h1, _⟩ := cell_eq_some '0' h
    rw [hsq] at h0 h1
    exact ⟨h0, h1⟩

/-- On a square grid whose in-range cells are stored, the stored state of an in-range cell
is the character read by `getElem`. -/
theorem cell_square (junk : Char) (g gb : List Char) (n : Int)
    (ht : TerminalStored n n g.length) {a b : Int} (hab : isInRange n n a b = true) :
    cell { g := g, g_backup := gb, m := n, n := n } a b = some (getElem junk n a b g) := by
  obtain ⟨h0, h1⟩ := index_bounds hab ht
  exact cell_of_bounds junk (G := { g := g, g_backup := gb, m := n, n := n }) h0 h1

/-- C17: on a square grid of side at least one whose cells are all Free or Occupied, when
`solveMaze` returns `s > 0` there is a self-avoiding 4-adjacent path of `s` cells from
`(0, 0)` to the terminal cell, all Free before the call, such that afterwards the cells
that read PathMarker are exactly the cells of the path, every other in-range cell has the
state it had before, and the dimensions are unchanged.  (The guard of `solveMaze` makes
the origin and the terminal Free.) -/
theorem solveMaze_square_marks_path (junk : Char) (G G' : grid) (s : Int)
    (hsq : G.m = G.n) (hn : 1 ≤ G.n)
    (hcells : ∀ c ∈ cellsOf G, cell G c.1 c.2 = some '0' ∨ cell G c.1 c.2 = some '1')
    (hsolve : solveMaze junk G = Run.done (s, G')) (hpos : 0 < s) :
    ∃ p : List (Int × Int), IsPath (cellsWith G '0') (0, 0) (G.n - 1, G.n - 1) p ∧
      p.Nodup ∧ (p.length : Int) = s ∧ (cellsWith G' '+').Perm p ∧
      (∀ c ∈ cellsOf G, c ∉ p → cell G' c.1 c.2 = cell G c.1 c.2) ∧
      G'.m = G.m ∧ G'.n = G.n := by
  have ht := terminalStored_of_cells hsq hn hcells
  obtain ⟨g, gb, m, n⟩ := G
  dsimp only at hsq hn ht
  subst hsq
  have hcells' : ∀ a b, isInRange m m a b = true →
      getElem junk m a b g = '0' ∨ getElem junk m a b g = '1' := by
    intro a b hab
    have h := hcells (a, b) (mem_cellsOf.mpr hab)
    dsimp only at h
    rw [cell_square junk g gb m ht hab] at h
    exact h.imp Option.some.inj Option.some.inj
  have hrT : isInRange m m (m - 1) (m - 1) = true := isInRange_iff.mpr (by omega)
  unfold solveMaze at hsolve
  dsimp only at hsolve
  split at hsolve
  · simp only [Run.done.injEq, Prod.mk.injEq] at hsolve
    omega
  · rename_i hguard
    split at hsolve
    · rename_i st g1 hrun
      simp only [Run.done.injEq, Prod.mk.injEq] at hsolve
      obtain ⟨rfl, rfl⟩ := hsolve
      obtain ⟨p, hhead, hlast, hchain, hnodup, hlen, hpcells, hlen', hmarks⟩ :=
        solveMazeUtil_path junk m hn dirs0 unitDirs_dirs0 _ 0 0 0 g st g1 ht hrun
      have ht1 : TerminalStored m m g1.length := by rw [hlen']; exact ht
      have hT : getElem junk m (m - 1) (m - 1) g = '0' := by
        rcases hcells' _ _ hrT with h | h
        · exact h
        · exact absurd (Or.inr h) hguard
      have hfreep : ∀ c ∈ p, c ∈ cellsWith { g := g, g_backup := gb, m := m, n := m } '0' := by
        intro c hc
        obtain ⟨hr, hor⟩ := hpcells c hc
        rw [mem_cellsWith]
        refine ⟨hr, ?_⟩
        rw [cell_square junk g gb m ht hr]
        rcases hor with rfl | h0
        · rw [hT]
        · rw [h0]
      refine ⟨p, ⟨hhead, hlast, hchain, hfreep⟩, hnodup, by omega, ?_, ?_, rfl, rfl⟩
      · apply (List.perm_ext_iff_of_nodup (cellsWith_nodup _ _) hnodup).mpr
        intro c
        rw [mem_cellsWith]
        dsimp only
        constructor
        · rintro ⟨hr, hc⟩
          rw [cell_square junk g1 gb m ht1 hr, hmarks _ _ hr] at hc
          by_contra hnot
          rw [if_neg hnot] at hc
          rcases hcells' _ _ hr with h | h
          · rw [h] at hc
            exact absurd hc (by decide)
          · rw [h] at hc
            exact absurd hc (by decide)
        · intro hc
          obtain ⟨hr, _⟩ := hpcells c hc
          refine ⟨hr, ?_⟩
          rw [cell_square junk g1 gb m ht1 hr, hmarks _ _ hr, if_pos hc]
      · intro c hc hnot
        have hr : isInRange m m c.1 c.2 = true := mem_cellsOf.mp hc
        rw [cell_square junk g1 gb m ht1 hr, cell_square junk g gb m ht hr, hmarks _ _ hr,
          if_neg hnot]
    · simp only [Run.done.injEq, Prod.mk.injEq] at hsolve
      omega
    · cases hsolve
    · cases hsolve

theorem solveMaze_square_marks_path_witness :
    ∃ p : List (Int × Int), IsPath (cellsWith cubeFree '0') (0, 0)
        (cubeFree.n - 1, cubeFree.n - 1) p ∧
      p.Nodup ∧ (p.length : Int) = 5 ∧ (cellsWith cubeSolved '+').Perm p ∧
      (∀ c ∈ cellsOf cubeFree, c ∉ p → cell cubeSolved c.1 c.2 = cell cubeFree c.1 c.2) ∧
      cubeSolved.m = cubeFree.m ∧ cubeSolved.n = cubeFree.n :=
  solveMaze_square_marks_path 'x' cubeFree cubeSolved 5 (by decide) (by decide) (by decide)
    (by decide) (by decide)

/-! ## Square grids: the search is complete -/

theorem tryDirs_false_all {call : Int → Int → Int → List Char → Run UtilState}
    (hc : Restoring call) (x y : Int) :
    ∀ (ds : List (Int × Int)) (s : Int) (g : List Char) (s' : Int) (g' : List Char),
      tryDirs call x y ds s g = Run.done (false, s', g') →
      ∀ d ∈ ds, call (x + d.1) (y + d.2) s g = Run.done (false, s, g) := by
  intro ds
  induction ds with
  | nil => intro s g s' g' _ d hd; cases hd
  | cons e ds ih =>
    intro s g s' g' h d hd
    simp only [tryDirs] at h
    split at h
    · simp at h
    · rename_i s1 g1 hcall
      obtain ⟨rfl, rfl⟩ := hc _ _ _ _ _ _ hcall
      rcases List.mem_cons.mp hd with rfl | hd
      · exact hcall
      · exact ih _ _ _ _ h d hd
    · cases h
    · cases h

/-- A chain of steps from `c` to `t` either avoids `a` altogether or, after its last visit
of `a`, continues from a successor of `a` without meeting `a` again. -/
theorem reach_avoiding {α : Type} (R : α → α → Prop) (a t : α) (hat : t ≠ a)
    (c : α) (h : Relation.ReflTransGen R c t) :
    (c ≠ a ∧ Relation.ReflTransGen (fun u v => R u v ∧ u ≠ a ∧ v ≠ a) c t) ∨
      ∃ nb, R a nb ∧ Relation.ReflTransGen (fun u v => R u v ∧ u ≠ a ∧ v ≠ a) nb t := by
  induction h using Relation.ReflTransGen.head_induction_on with
  | refl => exact Or.inl ⟨hat, Relation.ReflTransGen.refl⟩
  | @head u v hstep _ ih =>
    rcases ih with ⟨hv, hrest⟩ | hright
    · by_cases hu : u = a
      · subst hu
        exact Or.inr ⟨v, hstep, hrest⟩
      · exact Or.inl ⟨hu, Relation.ReflTransGen.head ⟨hstep, hu, hv⟩ hrest⟩
    · exact Or.inr hright

theorem freeStep_of_set (junk : Char) {n : Int} {g : List Char}
    (ht : TerminalStored n n g.length) {x y : Int} (hxy : isInRange n n x y = true)
    {u v : Int × Int} (h : FreeStep junk n g u v ∧ u ≠ (x, y) ∧ v ≠ (x, y)) :
    FreeStep junk n (g.set (index n x y).toNat '+') u v := by
  obtain ⟨⟨⟨hur, hu0⟩, ⟨hvr, hv0⟩, hadj⟩, hu, hv⟩ := h
  refine ⟨⟨hur, ?_⟩, ⟨hvr, ?_⟩, hadj⟩
  · rw [getElem_set_square junk '+' ht hxy hur, if_neg hu]
    exact hu0
  · rw [getElem_set_square junk '+' ht hxy hvr, if_neg hv]
    exact hv0

/-- On a square grid, a call of `solveMazeUtil` that reports failure at `(x, y)` shows that
no chain of adjacent Free cells leads from `(x, y)` to the terminal cell, provided every
unit step occurs in the direction list. -/
theorem solveMazeUtil_false_no_path (junk : Char) (n : Int) (dirs : List (Int × Int))
    (hall : ∀ d : Int × Int, d.1.natAbs + d.2.natAbs = 1 → d ∈ dirs) :
    ∀ (k : Nat) (x y s : Int) (g : List Char) (s' : Int) (g' : List Char),
      TerminalStored n n g.length →
      solveMazeUtil junk n n dirs k x y s g = Run.done (false, s', g') →
      ¬ Relation.ReflTransGen (FreeStep junk n g) (x, y) (n - 1, n - 1) := by
  intro k
  induction k with
  | zero =>
    intro x y s g s' g' _ h
    simp [solveMazeUtil] at h
  | succ k ih =>
    intro x y s g s' g' ht h hreach
    simp only [solveMazeUtil] at h
    split at h
    · split at h
      · cases h
      · simp at h
    · rename_i hterm
      have hne : ((n - 1, n - 1) : Int × Int) ≠ (x, y) := by
        intro heq
        obtain ⟨h1, h2⟩ := Prod.mk.inj heq
        exact hterm ⟨h1.symm, h2.symm⟩
      split at h
      · rename_i hfree
        split at h
        · cases h
        · rename_i g1 hset
          obtain ⟨hb0, hb1, rfl⟩ := setElem_eq_some hset
          split at h
          · simp at h
          · rename_i s1 g2 htry
            have hcalls := tryDirs_false_all (solveMazeUtil_false junk n n dirs k) x y _ _ _ _ _
              htry
            rcases reach_avoiding (FreeStep junk n g) (x, y) (n - 1, n - 1) hne (x, y) hreach
              with ⟨hcon, _⟩ | ⟨nb, hstep, hrest⟩
            · exact hcon rfl
            · have hrest' : Relation.ReflTransGen
                  (FreeStep junk n (g.set (index n x y).toNat '+')) nb (n - 1, n - 1) :=
                Relation.ReflTransGen.mono (fun u v huv => freeStep_of_set junk ht hfree.2 huv)
                  hrest
              have hadj := hstep.2.2
              unfold adjacent at hadj
              simp only at hadj
              have hd : ((nb.1 - x, nb.2 - y) : Int × Int) ∈ dirs :=
                hall _ (by simp only; omega)
              have hcall := hcalls _ hd
              simp only [add_sub_cancel] at hcall
              have ht1 : TerminalStored n n (g.set (index n x y).toNat '+').length := by
                simpa using ht
              exact ih _ _ _ _ _ _ ht1 hcall hrest'
          · cases h
          · cases h
      · rename_i hfree
        rcases Relation.ReflTransGen.cases_head hreach with heq | ⟨c, hstep, _⟩
        · exact hne heq.symm
        · exact hfree ⟨hstep.1.2, hstep.1.1⟩

theorem reach_of_path {F : Int × Int → Prop} :
    ∀ (p : List (Int × Int)) (a b : Int × Int), p.head? = some a → p.getLast? = some b →
      p.Chain' adjacent → (∀ c ∈ p, F c) →
      Relation.ReflTransGen (fun u v => F u ∧ F v ∧ adjacent u v) a b := by
  intro p
  induction p with
  | nil => intro a b h; cases h
  | cons c cs ih =>
    intro a b hhead hlast hchain hF
    simp only [List.head?_cons, Option.some.injEq] at hhead
    subst hhead
    cases cs with
    | nil =>
      simp only [List.getLast?_singleton, Option.some.injEq] at hlast
      subst hlast
      exact Relation.ReflTransGen.refl
    | cons e es =>
      rw [List.getLast?_cons_cons] at hlast
      rw [List.chain'_cons] at hchain
      exact Relation.ReflTransGen.head
        ⟨hF _ (List.mem_cons_self _ _), hF _ (List.mem_cons_of_mem _ (List.mem_cons_self _ _)),
          hchain.1⟩
        (ih e b rfl hlast hchain.2 fun x hx => hF x (List.mem_cons_of_mem _ hx))

theorem unit_mem_dirs0 (d : Int × Int) (hd : d.1.natAbs + d.2.natAbs = 1) : d ∈ dirs0 := by
  obtain ⟨a, b⟩ := d
  simp only at hd
  have h : (a = 1 ∧ b = 0) ∨ (a = 0 ∧ b = 1) ∨ (a = 0 ∧ b = -1) ∨ (a = -1 ∧ b = 0) := by
    omega
  unfold dirs0
  rcases h with ⟨rfl, rfl⟩ | ⟨rfl, rfl⟩ | ⟨rfl, rfl⟩ | ⟨rfl, rfl⟩ <;> simp

theorem unitDirs_of_perm {p : List (Int × Int)} (h : p.Perm dirs0) : UnitDirs p :=
  fun d hd => unitDirs_dirs0 d (h.subset hd)

theorem unit_mem_of_perm {p : List (Int × Int)} (h : p.Perm dirs0) (d : Int × Int)
    (hd : d.1.natAbs + d.2.natAbs = 1) : d ∈ p :=
  h.symm.subset (unit_mem_dirs0 d hd)

/-- On a square grid whose cells are stored and on which some path of Free cells leads from
the origin to the terminal cell, every run of the search whose direction list is an
arrangement of the four unit steps succeeds. -/
theorem runFrom_succeeds_of_path (junk : Char) (g gb : List Char) (n : Int)
    (ht : TerminalStored n n g.length) (dirs : List (Int × Int)) (hdirs : dirs.Perm dirs0)
    (p : List (Int × Int))
    (hp : IsPath (cellsWith { g := g, g_backup := gb, m := n, n := n } '0') (0, 0)
      (n - 1, n - 1) p) :
    ∃ s g1, runFrom junk { g := g, g_backup := gb, m := n, n := n } dirs =
      Run.done (true, s, g1) := by
  obtain ⟨hhead, hlast, hchain, hmem⟩ := hp
  have hfree : ∀ c ∈ p, FreeAt junk n g c := by
    intro c hc
    obtain ⟨hr, hcell⟩ := mem_cellsWith.mp (hmem c hc)
    dsimp only at hr hcell
    rw [cell_square junk g gb n ht hr] at hcell
    exact ⟨hr, Option.some.inj hcell⟩
  have hreach := reach_of_path p (0, 0) (n - 1, n - 1) hhead hlast hchain hfree
  obtain ⟨⟨ok, s, g1⟩, hr⟩ :=
    runFrom_total junk { g := g, g_backup := gb, m := n, n := n } ht dirs
  cases ok with
  | true => exact ⟨s, g1, hr⟩
  | false =>
    exact absurd hreach
      (solveMazeUtil_false_no_path junk n dirs (unit_mem_of_perm hdirs) _ 0 0 0 g s g1 ht hr)

/-- On a square grid whose cells are stored and all `'0'` or `'1'`, a successful run of the
search with unit steps yields a path of Free cells from the origin to the terminal cell. -/
theorem path_of_runFrom (junk : Char) (g gb : List Char) (n : Int) (hn : 1 ≤ n)
    (ht : TerminalStored n n g.length)
    (hT : getElem junk n (n - 1) (n - 1) g = '0') (dirs : List (Int × Int))
    (hdirs : UnitDirs dirs) (s : Int) (g1 : List Char)
    (hrun : runFrom junk { g := g, g_backup := gb, m := n, n := n } dirs =
      Run.done (true, s, g1)) :
    ∃ p, IsPath (cellsWith { g := g, g_backup := gb, m := n, n := n } '0') (0, 0)
      (n - 1, n - 1) p := by
  obtain ⟨p, hhead, hlast, hchain, _, _, hpcells, _, _⟩ :=
    solveMazeUtil_path junk n hn dirs hdirs _ 0 0 0 g s g1 ht hrun
  refine ⟨p, hhead, hlast, hchain, ?_⟩
  intro c hc
  obtain ⟨hr, hor⟩ := hpcells c hc
  rw [mem_cellsWith]
  refine ⟨hr, ?_⟩
  dsimp only
  rw [cell_square junk g gb n ht hr]
  rcases hor with rfl | h0
  · rw [hT]
  · rw [h0]

theorem square_size_bound {n : Int} (hn : 1 ≤ n) (hint : n * n ≤ INT_MAX) :
    n * n + 1 < INT_MAX := by
  unfold INT_MAX at *
  have h : n ≤ 46340 := by
    by_contra hcon
    have h1 : (46341 : Int) ≤ n := by omega
    nlinarith
  nlinarith

/-- C18: on a square grid of side `n ≥ 1` whose cells are all Free or Occupied, `solveMaze`
returns a positive value if and only if the origin and the terminal cell are Free and some
4-adjacent path of Free cells leads from `(0, 0)` to `(n - 1, n - 1)`; and when the storage
has the `n * n` entries given by the constructor, with `n * n` within the range of `int`,
`solveMazeBest` returns a positive value in exactly the same case. -/
theorem solveMaze_positive_iff_path (junk : Char) (G : grid) (hsq : G.m = G.n) (hn : 1 ≤ G.n)
    (hcells : ∀ c ∈ cellsOf G, cell G c.1 c.2 = some '0' ∨ cell G c.1 c.2 = some '1') :
    ((∃ s G', solveMaze junk G = Run.done (s, G') ∧ 0 < s) ↔
      (cell G 0 0 = some '0' ∧ cell G (G.n - 1) (G.n - 1) = some '0' ∧
        ∃ p, IsPath (cellsWith G '0') (0, 0) (G.n - 1, G.n - 1) p)) ∧
    ((G.g.length : Int) = G.n * G.n → G.n * G.n ≤ INT_MAX →
      ((∃ b G', solveMazeBest junk G = Run.done (b, G') ∧ 0 < b) ↔
        (cell G 0 0 = some '0' ∧ cell G (G.n - 1) (G.n - 1) = some '0' ∧
          ∃ p, IsPath (cellsWith G '0') (0, 0) (G.n - 1, G.n - 1) p))) := by
  have ht := terminalStored_of_cells hsq hn hcells
  obtain ⟨g, gb, m, n⟩ := G
  dsimp only at hsq hn ht
  subst hsq
  dsimp only
  have hcells' : ∀ a b, isInRange m m a b = true →
      getElem junk m a b g = '0' ∨ getElem junk m a b g = '1' := by
    intro a b hab
    have h := hcells (a, b) (mem_cellsOf.mpr hab)
    dsimp only at h
    rw [cell_square junk g gb m ht hab] at h
    exact h.imp Option.some.inj Option.some.inj
  have hrT : isInRange m m (m - 1) (m - 1) = true := isInRange_iff.mpr (by omega)
  have hrO : isInRange m m 0 0 = true := isInRange_iff.mpr (by omega)
  have hcount : (g.count '0' : Int) ≤ g.length := by
    exact_mod_cast List.count_le_length _ _
  have hends : ¬ (getElem junk m 0 0 g = '1' ∨ getElem junk m (m - 1) (m - 1) g = '1') →
      getElem junk m 0 0 g = '0' ∧ getElem junk m (m - 1) (m - 1) g = '0' := by
    intro hguard
    constructor
    · rcases hcells' _ _ hrO with h | h
      · exact h
      · exact absurd (Or.inl h) hguard
    · rcases hcells' _ _ hrT with h | h
      · exact h
      · exact absurd (Or.inr h) hguard
  have hcellO : ∀ ch, getElem junk m 0 0 g = ch →
      cell { g := g, g_backup := gb, m := m, n := m } 0 0 = some ch := by
    intro ch h
    rw [cell_square junk g gb m ht hrO, h]
  have hcellT : ∀ ch, getElem junk m (m - 1) (m - 1) g = ch →
      cell { g := g, g_backup := gb, m := m, n := m } (m - 1) (m - 1) = some ch := by
    intro ch h
    rw [cell_square junk g gb m ht hrT, h]
  have hguard_of : cell { g := g, g_backup := gb, m := m, n := m } 0 0 = some '0' →
      cell { g := g, g_backup := gb, m := m, n := m } (m - 1) (m - 1) = some '0' →
      ¬ (getElem junk m 0 0 g = '1' ∨ getElem junk m (m - 1) (m - 1) g = '1') := by
    intro hO hT
    rw [cell_square junk g gb m ht hrO] at hO
    rw [cell_square junk g gb m ht hrT] at hT
    rw [Option.some.inj hO, Option.some.inj hT]
    decide
  constructor
  · constructor
    · rintro ⟨s, G', hsolve, hpos⟩
      unfold solveMaze at hsolve
      dsimp only at hsolve
      split at hsolve
      · simp only [Run.done.injEq, Prod.mk.injEq] at hsolve
        omega
      · rename_i hguard
        obtain ⟨hO, hT⟩ := hends hguard
        refine ⟨hcellO _ hO, hcellT _ hT, ?_⟩
        split at hsolve
        · rename_i st g1 hrun
          exact path_of_runFrom junk g gb m hn ht hT dirs0 unitDirs_dirs0 st g1 hrun
        · simp only [Run.done.injEq, Prod.mk.injEq] at hsolve
          omega
        · cases hsolve
        · cases hsolve
    · rintro ⟨hO, hT, p, hp⟩
      have hguard := hguard_of hO hT
      obtain ⟨s, g1, hrun⟩ :=
        runFrom_succeeds_of_path junk g gb m ht dirs0 (List.Perm.refl _) p hp
      obtain ⟨_, _, hlt, _⟩ := solveMazeUtil_true _ _ _ _ _ _ _ _ _ _ _ hrun
      refine ⟨s, { g := g1, g_backup := gb, m := m, n := m }, ?_, hlt⟩
      unfold solveMaze
      dsimp only
      rw [if_neg hguard]
      unfold runFrom at hrun
      dsimp only at hrun
      rw [hrun]
  · intro hlen hint
    have hsize : (g.length : Int) + 1 < INT_MAX := by
      rw [hlen]
      exact square_size_bound hn hint
    constructor
    · rintro ⟨b, G', hbest, hpos⟩
      by_cases hguard : getElem junk m 0 0 g = '1' ∨ getElem junk m (m - 1) (m - 1) g = '1'
      · unfold solveMazeBest at hbest
        dsimp only at hbest
        rw [if_pos hguard] at hbest
        simp only [Run.done.injEq, Prod.mk.injEq] at hbest
        omega
      · obtain ⟨hO, hT⟩ := hends hguard
        refine ⟨hcellO _ hO, hcellT _ hT, ?_⟩
        rcases loopOver_bestBody junk m m g (permSeq 24 [0, 1, 2, 3])
            { g := g, min_path := INT_MAX, solution_found := false, best := g } rfl rfl
            (fun i _ => runFrom_total junk { g := g, g_backup := gb, m := m, n := m } ht
              (tmpDirs i))
          with ⟨hloop, _⟩ | ⟨pre, i, post, st, g1, hsplit, hrun, _, _, _, _⟩
        · rw [solveMazeBest_loop junk { g := g, g_backup := gb, m := m, n := m } hguard _ hloop]
            at hbest
          simp only [if_true, Run.done.injEq, Prod.mk.injEq] at hbest
          omega
        · have hi : tmpDirs i ∈ dirOrders := by
            unfold dirOrders
            rw [hsplit]
            exact List.mem_map_of_mem _ (by simp)
          exact path_of_runFrom junk g gb m hn ht hT (tmpDirs i)
            (unitDirs_of_perm ((mem_dirOrders_iff _).mp hi)) st g1 hrun
    · rintro ⟨hO, hT, p, hp⟩
      have hguard := hguard_of hO hT
      obtain ⟨s, g1, hrun⟩ :=
        runFrom_succeeds_of_path junk g gb m ht dirs0 (List.Perm.refl _) p hp
      obtain ⟨_, _, _, hle⟩ := solveMazeUtil_true _ _ _ _ _ _ _ _ _ _ _ hrun
      have hmem : [0, 1, 2, 3] ∈ permSeq 24 [0, 1, 2, 3] := by decide
      obtain ⟨_, i, _, b, g2, _, hbest, _, _, hres⟩ :=
        solveMazeBest_found junk { g := g, g_backup := gb, m := m, n := m } hguard ht
          ⟨[0, 1, 2, 3], hmem, s, g1, hrun, by dsimp only at hle hsize ⊢; omega⟩
      obtain ⟨_, _, hb, _⟩ := solveMazeUtil_true _ _ _ _ _ _ _ _ _ _ _ hbest
      exact ⟨b, _, hres, hb⟩

theorem solveMaze_positive_iff_path_witness :
    ((∃ s G', solveMaze 'x' cubeFree = Run.done (s, G') ∧ 0 < s) ↔
      (cell cubeFree 0 0 = some '0' ∧ cell cubeFree (cubeFree.n - 1) (cubeFree.n - 1) = some '0' ∧
        ∃ p, IsPath (cellsWith cubeFree '0') (0, 0) (cubeFree.n - 1, cubeFree.n - 1) p)) ∧
    ((∃ b G', solveMazeBest 'x' cubeFree = Run.done (b, G') ∧ 0 < b) ↔
      (cell cubeFree 0 0 = some '0' ∧ cell cubeFree (cubeFree.n - 1) (cubeFree.n - 1) = some '0' ∧
        ∃ p, IsPath (cellsWith cubeFree '0') (0, 0) (cubeFree.n - 1, cubeFree.n - 1) p)) :=
  ⟨(solveMaze_positive_iff_path 'x' cubeFree (by decide) (by decide) (by decide)).1,
    (solveMaze_positive_iff_path 'x' cubeFree (by decide) (by decide) (by decide)).2
      (by decide) (by decide)⟩

/-! ## Square grids: `destroyIsland` erases an island -/

theorem occStep_mono (junk : Char) (n : Int) {w w' : List Char}
    (h : ∀ c, OccAt junk n w' c → OccAt junk n w c) {a b : Int × Int}
    (hab : Relation.ReflTransGen (OccStep junk n w') a b) :
    Relation.ReflTransGen (OccStep junk n w) a b :=
  Relation.ReflTransGen.mono (fun _ _ hs => ⟨h _ hs.1, h _ hs.2.1, hs.2.2⟩) hab

/-- A chain that ends in an Occupied cell starts in one. -/
theorem occAt_of_reach (junk : Char) (n : Int) {w : List Char} {a b : Int × Int}
    (hab : Relation.ReflTransGen (OccStep junk n w) a b) (hb : OccAt junk n w b) :
    OccAt junk n w a := by
  rcases Relation.ReflTransGen.cases_head hab with rfl | ⟨c, hstep, _⟩
  · exact hb
  · exact hstep.1

theorem erases_nil (junk : Char) (n : Int) {w : List Char} (hbin : Binary junk n w) :
    Erases junk n [] w w :=
  ⟨rfl, hbin, le_refl _, fun _ h => h, fun _ h hn => absurd h hn,
    fun _ _ h hn _ => absurd h hn, fun _ h => by cases h⟩

theorem erases_append (junk : Char) (n : Int) {s1 s2 : List (Int × Int)}
    {w w1 w2 : List Char} (h1 : Erases junk n s1 w w1) (h2 : Erases junk n s2 w1 w2) :
    Erases junk n (s1 ++ s2) w w2 := by
  obtain ⟨hl1, _, hc1, hA1, hB1, hD1, hE1⟩ := h1
  obtain ⟨hl2, hb2, hc2, hA2, hB2, hD2, hE2⟩ := h2
  refine ⟨hl2.trans hl1, hb2, le_trans hc2 hc1, fun c h => hA1 c (hA2 c h), ?_, ?_, ?_⟩
  · intro c hc hnot
    by_cases hmid : OccAt junk n w1 c
    · obtain ⟨nb, hnb, hreach⟩ := hB2 c hmid hnot
      exact ⟨nb, List.mem_append_right _ hnb, occStep_mono junk n hA1 hreach⟩
    · obtain ⟨nb, hnb, hreach⟩ := hB1 c hc hmid
      exact ⟨nb, List.mem_append_left _ hnb, hreach⟩
  · intro u c hu hnot hc
    by_cases hmid : OccAt junk n w1 u
    · exact hD2 u c hmid hnot hc
    · exact hD1 u c hu hmid (hA2 c hc)
  · intro nb hnb hocc
    rcases List.mem_append.mp hnb with h | h
    · exact hE1 nb h (hA2 nb hocc)
    · exact hE2 nb h hocc

theorem destroyAll_erases (junk : Char) (n : Int) (k : Nat)
    (hcall : ∀ (x y : Int) (w : List Char), TerminalStored n n w.length → Binary junk n w →
      w.count '1' < k →
      ∃ w', destroyIsland junk n n k x y w = Run.done w' ∧ Erases junk n [(x, y)] w w') :
    ∀ (cs : List (Int × Int)) (w : List Char), TerminalStored n n w.length →
      Binary junk n w → w.count '1' < k →
      ∃ w', destroyAll junk n k cs w = Run.done w' ∧ Erases junk n cs w w' := by
  intro cs
  induction cs with
  | nil => intro w _ hbin _; exact ⟨w, rfl, erases_nil junk n hbin⟩
  | cons c cs ih =>
    intro w ht hbin hk
    obtain ⟨w1, hrun1, her1⟩ := hcall c.1 c.2 w ht hbin hk
    have ht1 : TerminalStored n n w1.length := by rw [her1.1]; exact ht
    obtain ⟨w2, hrun2, her2⟩ := ih w1 ht1 her1.2.1 (lt_of_le_of_lt her1.2.2.1 hk)
    refine ⟨w2, ?_, erases_append junk n her1 her2⟩
    simp only [destroyAll, hrun1, Run.bind, hrun2]

theorem isIsolated_true (junk : Char) (n : Int) {x y : Int} {v : List Char}
    (h : isIsolated junk n n x y v = true) (c : Int × Int) (hadj : adjacent (x, y) c) :
    ¬ OccAt junk n v c := by
  intro ⟨hr, hocc⟩
  obtain ⟨hx0, hx1, hy0, hy1⟩ := isInRange_iff.mp hr
  unfold isIsolated at h
  split at h
  · cases h
  · split at h
    · cases h
    · rename_i h1
      split at h
      · cases h
      · rename_i h2
        split at h
        · cases h
        · rename_i h3
          split at h
          · cases h
          · rename_i h4
            obtain ⟨a, b⟩ := c
            unfold adjacent at hadj
            simp only at hadj hx0 hx1 hy0 hy1 hocc
            have hcase : (a = x + 1 ∧ b = y) ∨ (a = x - 1 ∧ b = y) ∨ (a = x ∧ b = y + 1) ∨
                (a = x ∧ b = y - 1) := by omega
            rcases hcase with ⟨rfl, rfl⟩ | ⟨rfl, rfl⟩ | ⟨rfl, rfl⟩ | ⟨rfl, rfl⟩
            · exact h1 ⟨hx1, hocc⟩
            · exact h2 ⟨hx0, hocc⟩
            · exact h3 ⟨hy1, hocc⟩
            · exact h4 ⟨hy0, hocc⟩

theorem adjacent_mem_neighbours {x y : Int} {c : Int × Int} (hadj : adjacent (x, y) c) :
    c ∈ [(x + 1, y), (x - 1, y), (x, y + 1), (x, y - 1)] := by
  obtain ⟨a, b⟩ := c
  unfold adjacent at hadj
  simp only at hadj
  have hcase : (a = x + 1 ∧ b = y) ∨ (a = x - 1 ∧ b = y) ∨ (a = x ∧ b = y + 1) ∨
      (a = x ∧ b = y - 1) := by omega
  rcases hcase with ⟨rfl, rfl⟩ | ⟨rfl, rfl⟩ | ⟨rfl, rfl⟩ | ⟨rfl, rfl⟩ <;> simp

theorem neighbours_adjacent {x y : Int} {c : Int × Int}
    (h : c ∈ [(x + 1, y), (x - 1, y), (x, y + 1), (x, y - 1)]) : adjacent (x, y) c := by
  simp only [List.mem_cons, List.mem_singleton, List.not_mem_nil, or_false] at h
  unfold adjacent
  rcases h with rfl | rfl | rfl | rfl <;> simp only <;> omega

/-- Facts about the storage after an Occupied in-range cell of a square grid has been set to
`'0'`. -/
theorem occAt_after_erase (junk : Char) {n : Int} {v : List Char}
    (ht : TerminalStored n n v.length) {x y : Int} (hr : isInRange n n x y = true)
    (c : Int × Int) :
    OccAt junk n (v.set (index n x y).toNat '0') c ↔ OccAt junk n v c ∧ c ≠ (x, y) := by
  unfold OccAt
  constructor
  · rintro ⟨hc, hocc⟩
    rw [getElem_set_square junk '0' ht hr hc] at hocc
    split at hocc
    · exact absurd hocc (by decide)
    · rename_i hne
      exact ⟨⟨hc, hocc⟩, hne⟩
  · rintro ⟨⟨hc, hocc⟩, hne⟩
    refine ⟨hc, ?_⟩
    rw [getElem_set_square junk '0' ht hr hc, if_neg hne]
    exact hocc

theorem binary_after_set (junk : Char) {n : Int} {v : List Char}
    (ht : TerminalStored n n v.length) (hbin : Binary junk n v) {x y : Int}
    (hr : isInRange n n x y = true) (val : Char) (hval : val = '0' ∨ val = '1') :
    Binary junk n (v.set (index n x y).toNat val) := by
  intro a b hab
  rw [getElem_set_square junk val ht hr hab]
  split
  · exact hval
  · exact hbin a b hab

theorem destroyIsland_branch (junk : Char) (n : Int) (k : Nat) (x y : Int) (v v1 : List Char)
    (hcond : ¬ (getElem junk n x y v = '0' ∨ isInRange n n x y = false))
    (hiso : ¬ isIsolated junk n n x y v = true) (hset : setElem n x y '0' v = some v1) :
    destroyIsland junk n n (k + 1) x y v =
      destroyAll junk n k [(x + 1, y), (x - 1, y), (x, y + 1), (x, y - 1)] v1 := by
  rw [destroyIsland, if_neg hcond, if_neg hiso, hset]
  simp only [destroyAll]
  cases destroyIsland junk n n k (x + 1) y v1 with
  | done v2 =>
    simp only [Run.bind]
    cases destroyIsland junk n n k (x - 1) y v2 with
    | done v3 =>
      simp only [Run.bind]
      cases destroyIsland junk n n k x (y + 1) v3 with
      | done v4 =>
        simp only [Run.bind]
        cases destroyIsland junk n n k x (y - 1) v4 <;> rfl
      | fault => rfl
      | fuel => rfl
    | fault => rfl
    | fuel => rfl
  | fault => rfl
  | fuel => rfl

/-- On a square grid whose cells are stored and all `'0'` or `'1'`, a call of `destroyIsland`
with a budget above the number of `'1'` entries returns, and the storage it leaves results
from erasing the island started at `(x, y)`. -/
theorem destroyIsland_erases (junk : Char) (n : Int) :
    ∀ (k : Nat) (x y : Int) (v : List Char), TerminalStored n n v.length → Binary junk n v →
      v.count '1' < k →
      ∃ v', destroyIsland junk n n k x y v = Run.done v' ∧ Erases junk n [(x, y)] v v' := by
  intro k
  induction k with
  | zero => intro x y v _ _ h; omega
  | succ k ih =>
    intro x y v ht hbin hk
    by_cases hcond : getElem junk n x y v = '0' ∨ isInRange n n x y = false
    · refine ⟨v, by rw [destroyIsland, if_pos hcond], rfl, hbin, le_refl _, fun _ h => h,
        fun _ h hn => absurd h hn, fun _ _ h hn _ => absurd h hn, ?_⟩
      intro nb hnb hocc
      rw [List.mem_singleton] at hnb
      subst hnb
      rcases hcond with h0 | hout
      · have := hocc.2
        simp only at this
        rw [h0] at this
        exact absurd this (by decide)
      · have := hocc.1
        simp only at this
        rw [hout] at this
        cases this
    · have hr : isInRange n n x y = true := by
        cases hc : isInRange n n x y with
        | true => rfl
        | false => exact absurd (Or.inr hc) hcond
      have hone : getElem junk n x y v = '1' := by
        rcases hbin x y hr with h | h
        · exact absurd (Or.inl h) hcond
        · exact h
      have hocc : OccAt junk n v (x, y) := ⟨hr, hone⟩
      obtain ⟨hb0, hb1⟩ := index_bounds hr ht
      have hset := setElem_of_bounds '0' hb0 hb1
      have hcell := getElem_of_bounds junk hb0 hb1
      rw [hone] at hcell
      have hcount := count_set_lt '0' hcell (by decide)
      have hlen1 : (v.set (index n x y).toNat '0').length = v.length := by simp
      have ht1 : TerminalStored n n (v.set (index n x y).toNat '0').length := by
        rw [hlen1]; exact ht
      have hbin1 := binary_after_set junk ht hbin hr '0' (Or.inl rfl)
      have hocc1 := occAt_after_erase junk ht hr
      by_cases hiso : isIsolated junk n n x y v = true
      · refine ⟨v.set (index n x y).toNat '0', by
          rw [destroyIsland, if_neg hcond, if_pos hiso, hset], hlen1, hbin1, by omega,
          fun c h => ((hocc1 c).mp h).1, ?_, ?_, ?_⟩
        · intro c hc hnot
          have hcxy : c = (x, y) := by
            by_contra hne
            exact hnot ((hocc1 c).mpr ⟨hc, hne⟩)
          exact ⟨(x, y), List.mem_singleton_self _, by rw [hcxy]⟩
        · intro u c hu hnot hc hadj
          have huxy : u = (x, y) := by
            by_contra hne
            exact hnot ((hocc1 u).mpr ⟨hu, hne⟩)
          subst huxy
          exact isIsolated_true junk n hiso c hadj ((hocc1 c).mp hc).1
        · intro nb hnb h
          rw [List.mem_singleton] at hnb
          subst hnb
          exact ((hocc1 _).mp h).2 rfl
      · obtain ⟨v5, hrun, hl, hb, hc, hA, hB, hD, hE⟩ :=
          destroyAll_erases junk n k ih [(x + 1, y), (x - 1, y), (x, y + 1), (x, y - 1)]
            (v.set (index n x y).toNat '0') ht1 hbin1 (by omega)
        refine ⟨v5, by rw [destroyIsland_branch junk n k x y v _ hcond hiso hset, hrun],
          hl.trans hlen1, hb, by omega, fun c h => ((hocc1 c).mp (hA c h)).1, ?_, ?_, ?_⟩
        · intro c hcv hnot
          refine ⟨(x, y), List.mem_singleton_self _, ?_⟩
          by_cases hcxy : c = (x, y)
          · rw [hcxy]
          · obtain ⟨nb, hnb, hreach⟩ := hB c ((hocc1 c).mpr ⟨hcv, hcxy⟩) hnot
            have hreach' := occStep_mono junk n (fun c h => ((hocc1 c).mp h).1) hreach
            have hnbocc := occAt_of_reach junk n hreach' hcv
            exact Relation.ReflTransGen.head ⟨hocc, hnbocc, neighbours_adjacent hnb⟩ hreach'
        · intro u c hu hnot hcv hadj
          by_cases huxy : u = (x, y)
          · subst huxy
            exact hE c (adjacent_mem_neighbours hadj) hcv
          · exact hD u c ((hocc1 u).mpr ⟨hu, huxy⟩) hnot hcv hadj
        · intro nb hnb h
          rw [List.mem_singleton] at hnb
          subst hnb
          exact ((hocc1 _).mp (hA _ h)).2 rfl

/-- After erasing, no cell joined in `w` to an erased island's start remains Occupied: a
chain of adjacent Occupied cells that starts at an erased cell ends at an erased cell. -/
theorem erased_of_reach (junk : Char) (n : Int) {starts : List (Int × Int)}
    {w w' : List Char} (her : Erases junk n starts w w') {a c : Int × Int}
    (ha : ¬ OccAt junk n w' a) (hreach : Relation.ReflTransGen (OccStep junk n w) a c) :
    ¬ OccAt junk n w' c := by
  obtain ⟨_, _, _, _, _, hD, _⟩ := her
  induction hreach with
  | refl => exact ha
  | tail _ hstep ih =>
    intro hc
    exact hD _ _ hstep.1 ih hc hstep.2.2

/-! ## Square grids: the scan of `updateAndCount` counts the islands -/

theorem erases_self (junk : Char) (n : Int) {w : List Char} (hbin : Binary junk n w)
    {q : Int × Int} (hq : ¬ OccAt junk n w q) : Erases junk n [q] w w :=
  ⟨rfl, hbin, le_refl _, fun _ h => h, fun _ h hn => absurd h hn,
    fun _ _ h hn _ => absurd h hn, fun nb hnb => by
      rw [List.mem_singleton] at hnb
      rw [hnb]
      exact hq⟩

theorem scanCell_inv (junk : Char) (n : Int) (v0 : List Char)
    (ht : TerminalStored n n v0.length) (seen : List (Int × Int)) (s : ScanState)
    (hinv : ScanInv junk n v0 seen s) (i j : Nat)
    (hr : isInRange n n (j : Int) (i : Int) = true) :
    ∃ s', scanCell junk n n i j s = Run.done s' ∧
      ScanInv junk n v0 (seen ++ [((j : Int), (i : Int))]) s' := by
  obtain ⟨cnt, w⟩ := s
  obtain ⟨her, reps, hlen, hreps, hpair, hcover⟩ := hinv
  dsimp only at her hlen hreps hcover
  have htw : TerminalStored n n w.length := by rw [her.1]; exact ht
  unfold scanCell
  dsimp only
  by_cases hone : getElem junk n (j : Int) (i : Int) w = '1'
  · rw [if_pos hone]
    have hq : OccAt junk n w ((j : Int), (i : Int)) := ⟨hr, hone⟩
    obtain ⟨w', hrun, her'⟩ := destroyIsland_erases junk n (w.length + 1) j i w htw her.2.1
      (Nat.lt_succ_of_le (List.count_le_length _ _))
    rw [hrun]
    refine ⟨(cnt + 1, w'), rfl, erases_append junk n her her',
      reps ++ [((j : Int), (i : Int))], ?_, ?_, ?_, ?_⟩
    · simp only [List.length_append, List.length_singleton]
      push_cast
      omega
    · intro r hrm
      rcases List.mem_append.mp hrm with h | h
      · exact ⟨(hreps r h).1, fun hocc => (hreps r h).2 (her'.2.2.2.1 r hocc)⟩
      · rw [List.mem_singleton] at h
        subst h
        exact ⟨her.2.2.2.1 _ hq, her'.2.2.2.2.2.2 _ (List.mem_singleton_self _)⟩
    · rw [List.pairwise_append]
      refine ⟨hpair, List.pairwise_singleton _ _, ?_⟩
      intro a ha b hb hreach
      rw [List.mem_singleton] at hb
      subst hb
      exact erased_of_reach junk n her (hreps a ha).2 hreach hq
    · intro c hc hnot
      by_cases hmid : OccAt junk n w c
      · obtain ⟨nb, hnb, hreach⟩ := her'.2.2.2.2.1 c hmid hnot
        rw [List.mem_singleton] at hnb
        subst hnb
        exact ⟨_, List.mem_append_right _ (List.mem_singleton_self _),
          occStep_mono junk n her.2.2.2.1 hreach⟩
      · obtain ⟨r, hrm, hreach⟩ := hcover c hc hmid
        exact ⟨r, List.mem_append_left _ hrm, hreach⟩
  · rw [if_neg hone]
    refine ⟨(cnt, w), rfl, erases_append junk n her
      (erases_self junk n her.2.1 (fun h => hone h.2)), reps, hlen, hreps, hpair, hcover⟩

theorem scanRow_inv (junk : Char) (n : Int) (v0 : List Char)
    (ht : TerminalStored n n v0.length) (i : Nat) (hi : (i : Int) < n) :
    ∀ (js : List Nat) (seen : List (Int × Int)) (s : ScanState), (∀ j ∈ js, (j : Int) < n) →
      ScanInv junk n v0 seen s →
      ∃ s', scanRow junk n n i js s = Run.done s' ∧
        ScanInv junk n v0 (seen ++ js.map fun (j : Nat) => ((j : Int), (i : Int))) s' := by
  intro js
  induction js with
  | nil =>
    intro seen s _ hinv
    exact ⟨s, rfl, by simpa using hinv⟩
  | cons j js ih =>
    intro seen s hjs hinv
    have hr : isInRange n n (j : Int) (i : Int) = true :=
      isInRange_iff.mpr ⟨by omega, hjs j (List.mem_cons_self _ _), by omega, hi⟩
    obtain ⟨s1, hrun1, hinv1⟩ := scanCell_inv junk n v0 ht seen s hinv i j hr
    obtain ⟨s2, hrun2, hinv2⟩ := ih _ s1 (fun j' hj' => hjs j' (List.mem_cons_of_mem _ hj'))
      hinv1
    refine ⟨s2, by simp only [scanRow, hrun1, Run.bind, hrun2], ?_⟩
    simpa [List.append_assoc] using hinv2

theorem scanRows_inv (junk : Char) (n : Int) (v0 : List Char)
    (ht : TerminalStored n n v0.length) :
    ∀ (is : List Nat) (seen : List (Int × Int)) (s : ScanState), (∀ i ∈ is, (i : Int) < n) →
      ScanInv junk n v0 seen s →
      ∃ s', scanRows junk n n is s = Run.done s' ∧
        ScanInv junk n v0
          (seen ++ is.flatMap fun i =>
            (List.range n.toNat).map fun (j : Nat) => ((j : Int), (i : Int))) s' := by
  intro is
  induction is with
  | nil =>
    intro seen s _ hinv
    exact ⟨s, rfl, by simpa using hinv⟩
  | cons i is ih =>
    intro seen s his hinv
    obtain ⟨s1, hrun1, hinv1⟩ := scanRow_inv junk n v0 ht i (his i (List.mem_cons_self _ _))
      (List.range n.toNat) seen s
      (fun j hj => by
        have := List.mem_range.mp hj
        omega) hinv
    obtain ⟨s2, hrun2, hinv2⟩ := ih _ s1 (fun i' hi' => his i' (List.mem_cons_of_mem _ hi'))
      hinv1
    refine ⟨s2, by simp only [scanRows, hrun1, Run.bind, hrun2], ?_⟩
    simpa [List.append_assoc] using hinv2

/-! ## The number of connected components -/

theorem adjacent_symm {p q : Int × Int} (h : adjacent p q) : adjacent q p := by
  unfold adjacent at *
  omega

theorem connected_symm {S : List (Int × Int)} {a b : Int × Int} (h : Connected S a b) :
    Connected S b a := by
  have hsym : Symmetric fun a b : Int × Int => a ∈ S ∧ b ∈ S ∧ adjacent a b :=
    fun _ _ hab => ⟨hab.2.1, hab.1, adjacent_symm hab.2.2⟩
  exact Relation.ReflTransGen.symmetric hsym h

theorem isComponentCount_le {S : List (Int × Int)} {k k' : Nat}
    (h : IsComponentCount S k) (h' : IsComponentCount S k') : k ≤ k' := by
  classical
  obtain ⟨reps, hlen, hmem, hpair, _⟩ := h
  obtain ⟨reps', hlen', _, _, hcover'⟩ := h'
  let f : Int × Int → Int × Int := fun r =>
    if hr : ∃ r' ∈ reps', Connected S r' r then Classical.choose hr else r
  have hf : ∀ r ∈ reps, f r ∈ reps' ∧ Connected S (f r) r := by
    intro r hr
    have hex := hcover' r (hmem r hr)
    simp only [f, dif_pos hex]
    exact Classical.choose_spec hex
  have hsymm : Symmetric fun a b : Int × Int => ¬ Connected S a b :=
    fun _ _ hab hba => hab (connected_symm hba)
  have hinj : ∀ a ∈ reps, ∀ b ∈ reps, f a = f b → a = b := by
    intro a ha b hb hab
    by_contra hne
    have h1 := (hf a ha).2
    have h2 := (hf b hb).2
    rw [hab] at h1
    exact hpair.forall hsymm ha hb hne
      (Relation.ReflTransGen.trans (connected_symm h1) h2)
  have hnodup : reps.Nodup :=
    hpair.imp fun hab heq => hab (by rw [heq]; exact Relation.ReflTransGen.refl)
  have hnodup' : (reps.map f).Nodup := List.Nodup.map_on hinj hnodup
  have hsub : reps.map f ⊆ reps' := by
    intro x hx
    obtain ⟨r, hr, rfl⟩ := List.mem_map.mp hx
    exact (hf r hr).1
  have hle := (List.subperm_of_subset hnodup' hsub).length_le
  rw [List.length_map] at hle
  omega

/-- The number of connected components of a set of cells is determined by the set. -/
theorem isComponentCount_unique {S : List (Int × Int)} {k k' : Nat}
    (h : IsComponentCount S k) (h' : IsComponentCount S k') : k' = k :=
  le_antisymm (isComponentCount_le h' h) (isComponentCount_le h h')

theorem connected_iff_occ (junk : Char) (g gb : List Char) (n : Int)
    (ht : TerminalStored n n g.length) (a b : Int × Int) :
    Connected (cellsWith { g := g, g_backup := gb, m := n, n := n } '1') a b ↔
      Relation.ReflTransGen (OccStep junk n g) a b := by
  have hmem : ∀ c, c ∈ cellsWith { g := g, g_backup := gb, m := n, n := n } '1' ↔
      OccAt junk n g c := by
    intro c
    rw [mem_cellsWith]
    dsimp only
    unfold OccAt
    constructor
    · rintro ⟨hr, hc⟩
      rw [cell_square junk g gb n ht hr] at hc
      exact ⟨hr, Option.some.inj hc⟩
    · rintro ⟨hr, hc⟩
      exact ⟨hr, by rw [cell_square junk g gb n ht hr, hc]⟩
  unfold Connected
  constructor
  · exact Relation.ReflTransGen.mono fun u v h =>
      ⟨(hmem u).mp h.1, (hmem v).mp h.2.1, h.2.2⟩
  · exact Relation.ReflTransGen.mono fun u v h =>
      ⟨(hmem u).mpr h.1, (hmem v).mpr h.2.1, h.2.2⟩

/-- On a square grid whose cells are all `'0'` or `'1'`, the storage is binary in the sense
of `Binary`. -/
theorem binary_of_cells (junk : Char) (g gb : List Char) (n : Int)
    (ht : TerminalStored n n g.length)
    (hcells : ∀ c ∈ cellsOf { g := g, g_backup := gb, m := n, n := n },
      cell { g := g, g_backup := gb, m := n, n := n } c.1 c.2 = some '0' ∨
        cell { g := g, g_backup := gb, m := n, n := n } c.1 c.2 = some '1') :
    Binary junk n g := by
  intro a b hab
  have h := hcells (a, b) (mem_cellsOf.mpr hab)
  dsimp only at h
  rw [cell_square junk g gb n ht hab] at h
  exact h.imp Option.some.inj Option.some.inj

/-- The island count of `updateAndCount` on the storage `g1` of a square grid: the scan
returns the length of a list of representatives of the connected components. -/
theorem scan_counts (junk : Char) (gb : List Char) (n : Int) (g1 : List Char)
    (ht : TerminalStored n n g1.length) (hbin : Binary junk n g1) :
    ∃ (k : Nat) (w : List Char),
      scanRows junk n n (List.range n.toNat) (0, g1) = Run.done ((k : Int), w) ∧
      IsComponentCount (cellsWith { g := g1, g_backup := gb, m := n, n := n } '1') k := by
  have hinit : ScanInv junk n g1 [] (0, g1) :=
    ⟨erases_nil junk n hbin, [], rfl, (fun _ h => by cases h), List.Pairwise.nil,
      fun _ h hn => absurd h hn⟩
  obtain ⟨⟨cnt, w⟩, hrun, her, reps, hlen, hreps, hpair, hcover⟩ :=
    scanRows_inv junk n g1 ht (List.range n.toNat) [] (0, g1)
      (fun i hi => by
        have := List.mem_range.mp hi
        omega) hinit
  dsimp only at hlen hreps hcover her
  rw [List.nil_append] at her
  have hnone : ∀ c, ¬ OccAt junk n w c := by
    intro c hc
    have hr : isInRange n n c.1 c.2 = true := hc.1
    have hmem : c ∈ cellsOf { g := g1, g_backup := gb, m := n, n := n } := mem_cellsOf.mpr hr
    rw [cellsOf_eq] at hmem
    exact her.2.2.2.2.2.2 c hmem hc
  have hS : ∀ c, c ∈ cellsWith { g := g1, g_backup := gb, m := n, n := n } '1' ↔
      OccAt junk n g1 c := by
    intro c
    rw [mem_cellsWith]
    dsimp only
    unfold OccAt
    constructor
    · rintro ⟨hr, hc⟩
      rw [cell_square junk g1 gb n ht hr] at hc
      exact ⟨hr, Option.some.inj hc⟩
    · rintro ⟨hr, hc⟩
      exact ⟨hr, by rw [cell_square junk g1 gb n ht hr, hc]⟩
  refine ⟨reps.length, w, by rw [hrun, hlen], reps, rfl,
    fun r hr => (hS r).mpr (hreps r hr).1, ?_, ?_⟩
  · exact hpair.imp fun hab hcon => hab ((connected_iff_occ junk g1 gb n ht _ _).mp hcon)
  · intro c hc
    obtain ⟨r, hr, hreach⟩ := hcover c ((hS c).mp hc) (hnone c)
    exact ⟨r, hr, (connected_iff_occ junk g1 gb n ht _ _).mpr hreach⟩

/-- C16: on a square grid of side at least one whose cells are all Free or Occupied, for
every in-range `(x, y)`, `updateAndCount(x, y)` returns a number `k` and leaves the grid
with cell `(x, y)` Occupied and every other cell as before, and `k` is the number of
4-connected components of the Occupied cells of that grid (no other number is).  Moreover
every call of `destroyIsland` started at an Occupied cell of such a grid returns, sets to
Free every cell joined to the start by a chain of adjacent Occupied cells, and leaves every
other cell as it was. -/
theorem updateAndCount_square_counts (junk : Char) (G : grid) (x y : Int)
    (hsq : G.m = G.n) (hn : 1 ≤ G.n)
    (hcells : ∀ c ∈ cellsOf G, cell G c.1 c.2 = some '0' ∨ cell G c.1 c.2 = some '1')
    (hr : isInRange G.m G.n x y = true) :
    (∃ (k : Nat) (G' : grid), updateAndCount junk G x y = Run.done ((k : Int), G') ∧
      G'.m = G.m ∧ G'.n = G.n ∧
      cell G' x y = some '1' ∧
      (∀ c ∈ cellsOf G, c ≠ (x, y) → cell G' c.1 c.2 = cell G c.1 c.2) ∧
      IsComponentCount (cellsWith G' '1') k ∧
      ∀ k', IsComponentCount (cellsWith G' '1') k' → k' = k) ∧
    ∀ (H : grid) (a b : Int), H.m = H.n → 1 ≤ H.n →
      (∀ c ∈ cellsOf H, cell H c.1 c.2 = some '0' ∨ cell H c.1 c.2 = some '1') →
      isInRange H.m H.n a b = true → cell H a b = some '1' →
      ∃ v', destroyIsland junk H.m H.n (H.g.length + 1) a b H.g = Run.done v' ∧
        ∀ c ∈ cellsOf H,
          (Connected (cellsWith H '1') (a, b) c → cell { H with g := v' } c.1 c.2 = some '0') ∧
          (¬ Connected (cellsWith H '1') (a, b) c →
            cell { H with g := v' } c.1 c.2 = cell H c.1 c.2) := by
  constructor
  · have ht := terminalStored_of_cells hsq hn hcells
    obtain ⟨g, gb, m, n⟩ := G
    dsimp only at hsq hn ht hr
    subst hsq
    have hbin := binary_of_cells junk g gb m ht hcells
    obtain ⟨hb0, hb1⟩ := index_bounds hr ht
    have hlen1 : (g.set (index m x y).toNat '1').length = g.length := by simp
    have ht1 : TerminalStored m m (g.set (index m x y).toNat '1').length := by
      rw [hlen1]; exact ht
    have hbin1 := binary_after_set junk ht hbin hr '1' (Or.inr rfl)
    obtain ⟨k, w, hscan, hcount⟩ := scan_counts junk gb m _ ht1 hbin1
    refine ⟨k, { g := g.set (index m x y).toNat '1', g_backup := gb, m := m, n := m }, ?_,
      rfl, rfl, ?_, ?_, hcount, fun k' hk' => isComponentCount_unique hcount hk'⟩
    · unfold updateAndCount
      dsimp only
      rw [if_neg (by rw [hr]; decide), setElem_of_bounds '1' hb0 hb1]
      dsimp only
      rw [hscan]
      rfl
    · rw [cell_square junk _ gb m ht1 hr, getElem_set_same junk '1' hb0 hb1]
    · intro c hc hne
      have hcr : isInRange m m c.1 c.2 = true := mem_cellsOf.mp hc
      rw [cell_square junk _ gb m ht1 hcr, cell_square junk g gb m ht hcr,
        getElem_set_square junk '1' ht hr hcr, if_neg hne]
  · intro H a b hsqH hnH hcellsH hab hone
    have ht := terminalStored_of_cells hsqH hnH hcellsH
    obtain ⟨g, gb, m, n⟩ := H
    dsimp only at hsqH hnH ht hab hone
    subst hsqH
    dsimp only
    have hbin := binary_of_cells junk g gb m ht hcellsH
    obtain ⟨v', hrun, her⟩ := destroyIsland_erases junk m (g.length + 1) a b g ht hbin
      (Nat.lt_succ_of_le (List.count_le_length _ _))
    obtain ⟨hl, hb', _, hA, hB, _, hE⟩ := id her
    have ht' : TerminalStored m m v'.length := by rw [hl]; exact ht
    refine ⟨v', hrun, ?_⟩
    intro c hc
    have hcr : isInRange m m c.1 c.2 = true := mem_cellsOf.mp hc
    rw [cell_square junk v' gb m ht' hcr, cell_square junk g gb m ht hcr]
    constructor
    · intro hcon
      have hreach := (connected_iff_occ junk g gb m ht _ _).mp hcon
      have hnot := erased_of_reach junk m her (hE _ (List.mem_singleton_self _)) hreach
      rcases hb' c.1 c.2 hcr with h | h
      · rw [h]
      · exact absurd ⟨hcr, h⟩ hnot
    · intro hcon
      by_cases hocc : OccAt junk m g c
      · have hocc' : OccAt junk m v' c := by
          by_contra hnot
          obtain ⟨nb, hnb, hreach⟩ := hB c hocc hnot
          rw [List.mem_singleton] at hnb
          subst hnb
          exact hcon ((connected_iff_occ junk g gb m ht _ _).mpr hreach)
        rw [hocc.2, hocc'.2]
      · have hocc' : ¬ OccAt junk m v' c := fun h => hocc (hA c h)
        rcases hbin c.1 c.2 hcr with h | h
        · rcases hb' c.1 c.2 hcr with h' | h'
          · rw [h, h']
          · exact absurd ⟨hcr, h'⟩ hocc'
        · exact absurd ⟨hcr, h⟩ hocc

set_option maxRecDepth 100000 in
theorem updateAndCount_square_counts_witness :
    (∃ (k : Nat) (G' : grid), updateAndCount 'x' smallWalled 0 0 = Run.done ((k : Int), G') ∧
      G'.m = smallWalled.m ∧ G'.n = smallWalled.n ∧
      cell G' 0 0 = some '1' ∧
      (∀ c ∈ cellsOf smallWalled, c ≠ (0, 0) → cell G' c.1 c.2 = cell smallWalled c.1 c.2) ∧
      IsComponentCount (cellsWith G' '1') k ∧
      ∀ k', IsComponentCount (cellsWith G' '1') k' → k' = k) ∧
    ∀ (H : grid) (a b : Int), H.m = H.n → 1 ≤ H.n →
      (∀ c ∈ cellsOf H, cell H c.1 c.2 = some '0' ∨ cell H c.1 c.2 = some '1') →
      isInRange H.m H.n a b = true → cell H a b = some '1' →
      ∃ v', destroyIsland 'x' H.m H.n (H.g.length + 1) a b H.g = Run.done v' ∧
        ∀ c ∈ cellsOf H,
          (Connected (cellsWith H '1') (a, b) c → cell { H with g := v' } c.1 c.2 = some '0') ∧
          (¬ Connected (cellsWith H '1') (a, b) c →
            cell { H with g := v' } c.1 c.2 = cell H c.1 c.2) :=
  updateAndCount_square_counts 'x' smallWalled 0 0 (by decide) (by decide) (by decide)
    (by decide)

end Island
